import Mathlib

/-!
# kCache: shallow embedding and verification of the specification claims

This file embeds the core of the kCache repository (a distributed in-memory
key/value cache) in Lean 4 and settles the specification claims about it.

Components embedded, each translated from the Go source:
* `KCache.Lru`  — the byte-bounded LRU engine (`src/lru/lru.go`);
* `KCache.SF`   — the single-flight request coalescer
  (`src/singleflight/singleflight.go`), as a small-step transition system
  whose atomic steps are the mutex-protected regions of `Group.Do`;
* `KCache.CH`   — the consistent-hash ring (`consistenthash`, in
  `src/cache.go`);
* `KCache.Pool` — the HTTP peer pool `Set`/`PickPeer` (`src/unnamed/part_000`),
  with Go nil-pointer panics made explicit as `Option.none` results;
* `KCache.Grp`  — the group load path (`Group.Get`/`load`/`getLocally` in
  `src/http.go`), with peer and loader behaviour supplied as pure oracles.
-/

namespace KCache

/-! ## LRU engine (src/lru/lru.go)

Entries live in a list whose head is the front (most recently used) and whose
last element is the back (least recently used), mirroring `container/list`
usage in the source.  The value type is a parameter `V` with a measure
`vLen : V → Nat` standing for Go's `Value interface { Len() int }`.
Each entry carries a ghost field `stamp`: the index of the operation that
last accessed it (`Add` or a successful `Get`).  The stamp does not affect
any computation on real data; it only lets us state the recency claims.
Go's `len(key)` counts UTF-8 bytes, hence `String.utf8ByteSize`.
The `OnEvicted` callback does not change cache state and is not modelled. -/

structure Entry (V : Type) where
  key : String
  value : V
  stamp : Nat
deriving Repr, DecidableEq

variable {V : Type}

/-- Byte size of one entry: `len(kv.key) + kv.value.Len()` in the source. -/
def entrySize (vLen : V → Nat) (e : Entry V) : Int :=
  (e.key.utf8ByteSize : Int) + (vLen e.value : Int)

/-- `lru.Cache`: `maxBytes`, the running byte count `nbytes`, and the recency
list (head = front / MRU, last = back / LRU).  The `cache` map of the source
is represented by key lookup in the list; uniqueness of keys is an invariant
we prove rather than assume. -/
structure Lru (V : Type) where
  maxBytes : Int
  nbytes : Int
  entries : List (Entry V)
deriving Repr, DecidableEq

/-- `lru.New(maxBytes, onEvicted)`. -/
def lruNew (maxBytes : Int) : Lru V :=
  { maxBytes := maxBytes, nbytes := 0, entries := [] }

/-- Sum of `entrySize` over a list of entries. -/
def sumSizes (vLen : V → Nat) (es : List (Entry V)) : Int :=
  (es.map (entrySize vLen)).sum

/-- `Cache.Get`: on hit, move the entry to the front and return its value;
`t` is the ghost timestamp of this operation. -/
def lruGet (_vLen : V → Nat) (t : Nat) (c : Lru V) (key : String) :
    Option V × Lru V :=
  match c.entries.find? (fun e => e.key == key) with
  | none => (none, c)
  | some e =>
      (some e.value,
       { c with entries :=
           { e with stamp := t } :: c.entries.eraseP (fun e => e.key == key) })

/-- `Cache.removeOldest`: drop the back entry and decrement `nbytes` by its
size; a no-op on an empty list (`ll.Back() == nil`). -/
def lruRemoveOldest (vLen : V → Nat) (c : Lru V) : Lru V :=
  match c.entries.getLast? with
  | none => c
  | some e =>
      { c with entries := c.entries.dropLast,
               nbytes := c.nbytes - entrySize vLen e }

/-- The eviction loop of `Cache.Add`:
`for c.maxBytes != 0 && c.nbytes > c.maxBytes { c.removeOldest() }`.
Each iteration shortens the list by one, so `entries.length` rounds of the
loop body suffice; `evictGo` runs the loop with that fuel. -/
def evictGo (vLen : V → Nat) : Nat → Lru V → Lru V
  | 0, c => c
  | fuel + 1, c =>
      if c.maxBytes ≠ 0 ∧ c.nbytes > c.maxBytes then
        evictGo vLen fuel (lruRemoveOldest vLen c)
      else c

/-- Eviction loop at its natural fuel. -/
def evictLoop (vLen : V → Nat) (c : Lru V) : Lru V :=
  evictGo vLen c.entries.length c

/-- `Cache.Add`: update-and-move-to-front on an existing key, else push a new
front entry; then run the eviction loop. -/
def lruAdd (vLen : V → Nat) (t : Nat) (c : Lru V) (key : String) (v : V) :
    Lru V :=
  let c' :=
    match c.entries.find? (fun e => e.key == key) with
    | some e =>
        { c with
          entries :=
            { key := key, value := v, stamp := t } ::
              c.entries.eraseP (fun e => e.key == key),
          nbytes := c.nbytes + (vLen v : Int) - (vLen e.value : Int) }
    | none =>
        { c with
          entries := { key := key, value := v, stamp := t } :: c.entries,
          nbytes := c.nbytes + (key.utf8ByteSize : Int) + (vLen v : Int) }
  evictLoop vLen c'

/-- The loop of `Cache.Clear`: `for c.ll.Len() > 0 { c.removeOldest() }`,
again with the list length as fuel. -/
def clearGo (vLen : V → Nat) : Nat → Lru V → Lru V
  | 0, c => c
  | fuel + 1, c =>
      if c.entries.length > 0 then clearGo vLen fuel (lruRemoveOldest vLen c)
      else c

/-- `Cache.Clear`. -/
def lruClear (vLen : V → Nat) (c : Lru V) : Lru V :=
  clearGo vLen c.entries.length c

/-- One LRU operation of the public interface. -/
inductive LruOp (V : Type) where
  | add (key : String) (v : V)
  | get (key : String)
  | removeOldest
  | clear
deriving Repr, DecidableEq

/-- Step of the operational model; `t` is the index of the operation in the
trace (ghost data only). -/
def lruStep (vLen : V → Nat) (t : Nat) (c : Lru V) : LruOp V → Lru V
  | .add k v => lruAdd vLen t c k v
  | .get k => (lruGet vLen t c k).2
  | .removeOldest => lruRemoveOldest vLen c
  | .clear => lruClear vLen c

/-- Run a trace of operations starting at time `t`. -/
def lruRunFrom (vLen : V → Nat) (t : Nat) (c : Lru V) : List (LruOp V) → Lru V
  | [] => c
  | op :: ops => lruRunFrom vLen (t + 1) (lruStep vLen t c op) ops

/-- Run a trace of operations from time `0`. -/
def lruRun (vLen : V → Nat) (c : Lru V) (ops : List (LruOp V)) : Lru V :=
  lruRunFrom vLen 0 c ops

/-! ### Helper lemmas about the LRU model -/

theorem sumSizes_nonneg (vLen : V → Nat) (es : List (Entry V)) :
    0 ≤ sumSizes vLen es := by
  induction es with
  | nil => simp [sumSizes]
  | cons e es ih =>
      simp only [sumSizes, List.map_cons, List.sum_cons] at ih ⊢
      have : (0 : Int) ≤ entrySize vLen e := by
        unfold entrySize; positivity
      omega

theorem sumSizes_cons (vLen : V → Nat) (e : Entry V) (es : List (Entry V)) :
    sumSizes vLen (e :: es) = entrySize vLen e + sumSizes vLen es := by
  simp [sumSizes]

theorem sumSizes_perm (vLen : V → Nat) {es es' : List (Entry V)}
    (h : es.Perm es') : sumSizes vLen es = sumSizes vLen es' := by
  unfold sumSizes
  exact (h.map (entrySize vLen)).sum_eq

/-- A successful `find?` splits the list, up to permutation, into the found
element and the `eraseP` remainder. -/
theorem find?_perm_eraseP {p : Entry V → Bool} {es : List (Entry V)}
    {e : Entry V} (h : es.find? p = some e) :
    es.Perm (e :: es.eraseP p) := by
  induction es with
  | nil => simp at h
  | cons a es ih =>
      by_cases hp : p a
      · rw [List.find?_cons_of_pos _ hp] at h
        cases h
        rw [List.eraseP_cons_of_pos hp]
      · rw [List.find?_cons_of_neg _ hp] at h
        rw [List.eraseP_cons_of_neg hp]
        exact ((ih h).cons a).trans (List.Perm.swap e a _)

theorem sumSizes_dropLast (vLen : V → Nat) {es : List (Entry V)} {e : Entry V}
    (h : es.getLast? = some e) :
    sumSizes vLen es.dropLast = sumSizes vLen es - entrySize vLen e := by
  have hne : es ≠ [] := by rintro rfl; simp at h
  have hlast : es.getLast hne = e := by
    have h' := List.getLast?_eq_getLast es hne
    rw [h'] at h
    exact Option.some_inj.mp h
  have hsplit : es.dropLast ++ [e] = es := by
    rw [← hlast]
    exact List.dropLast_append_getLast hne
  calc sumSizes vLen es.dropLast
      = sumSizes vLen es.dropLast + entrySize vLen e - entrySize vLen e := by
        omega
    _ = sumSizes vLen (es.dropLast ++ [e]) - entrySize vLen e := by
        unfold sumSizes; simp
    _ = sumSizes vLen es - entrySize vLen e := by rw [hsplit]

/-- `removeOldest` keeps `nbytes` equal to the sum of live entry sizes. -/
theorem lruRemoveOldest_sum (vLen : V → Nat) {c : Lru V}
    (h : c.nbytes = sumSizes vLen c.entries) :
    (lruRemoveOldest vLen c).nbytes
      = sumSizes vLen (lruRemoveOldest vLen c).entries := by
  unfold lruRemoveOldest
  cases hg : c.entries.getLast? with
  | none => simpa using h
  | some e => simp [sumSizes_dropLast vLen hg, h]

theorem lruRemoveOldest_maxBytes (vLen : V → Nat) (c : Lru V) :
    (lruRemoveOldest vLen c).maxBytes = c.maxBytes := by
  unfold lruRemoveOldest
  cases c.entries.getLast? <;> rfl

theorem lruRemoveOldest_nbytes_le (vLen : V → Nat) (c : Lru V) :
    (lruRemoveOldest vLen c).nbytes ≤ c.nbytes := by
  unfold lruRemoveOldest
  cases hg : c.entries.getLast? with
  | none => simp
  | some e =>
      have : (0 : Int) ≤ entrySize vLen e := by unfold entrySize; positivity
      simp; omega

theorem lruRemoveOldest_length (vLen : V → Nat) {c : Lru V}
    (h : c.entries ≠ []) :
    (lruRemoveOldest vLen c).entries.length = c.entries.length - 1 := by
  unfold lruRemoveOldest
  cases hg : c.entries.getLast? with
  | none => exact absurd (List.getLast?_eq_none_iff.mp hg) h
  | some e => simp [List.length_dropLast]

theorem evictGo_sum (vLen : V → Nat) (fuel : Nat) :
    ∀ c : Lru V, c.nbytes = sumSizes vLen c.entries →
      (evictGo vLen fuel c).nbytes
        = sumSizes vLen (evictGo vLen fuel c).entries := by
  induction fuel with
  | zero => intro c h; simpa [evictGo] using h
  | succ n ih =>
      intro c h
      unfold evictGo
      split
      · exact ih _ (lruRemoveOldest_sum vLen h)
      · exact h

theorem evictGo_maxBytes (vLen : V → Nat) (fuel : Nat) :
    ∀ c : Lru V, (evictGo vLen fuel c).maxBytes = c.maxBytes := by
  induction fuel with
  | zero => intro c; rfl
  | succ n ih =>
      intro c
      unfold evictGo
      split
      · rw [ih, lruRemoveOldest_maxBytes]
      · rfl

/-- After the eviction loop, the list is a prefix (an initial segment) of the
input list: eviction only drops entries from the back. -/
theorem evictGo_take (vLen : V → Nat) (fuel : Nat) :
    ∀ c : Lru V, ∃ n, (evictGo vLen fuel c).entries = c.entries.take n := by
  induction fuel with
  | zero => intro c; exact ⟨c.entries.length, by simp [evictGo]⟩
  | succ m ih =>
      intro c
      unfold evictGo
      split
      · obtain ⟨n, hn⟩ := ih (lruRemoveOldest vLen c)
        cases hg : c.entries.getLast? with
        | none =>
            simp only [lruRemoveOldest, hg] at hn ⊢
            exact ⟨n, hn⟩
        | some e =>
            simp only [lruRemoveOldest, hg] at hn ⊢
            refine ⟨min n (c.entries.length - 1), ?_⟩
            rw [hn]
            simp [List.dropLast_eq_take, List.take_take]
      · exact ⟨c.entries.length, by simp⟩

/-- With enough fuel (the list length), the eviction loop establishes the byte
bound whenever `0 < maxBytes`. -/
theorem evictGo_le (vLen : V → Nat) (fuel : Nat) :
    ∀ c : Lru V, c.entries.length ≤ fuel →
      c.nbytes = sumSizes vLen c.entries → 0 < c.maxBytes →
      (evictGo vLen fuel c).nbytes ≤ (evictGo vLen fuel c).maxBytes := by
  induction fuel with
  | zero =>
      intro c hf hs hm
      have : c.entries = [] := List.length_eq_zero.mp (by omega)
      simp only [evictGo]
      rw [hs, this]
      simpa [sumSizes] using hm.le
  | succ n ih =>
      intro c hf hs hm
      unfold evictGo
      split
      · rename_i hcond
        by_cases hne : c.entries = []
        · rw [hs, hne] at hcond
          simp [sumSizes] at hcond
          omega
        · have hlen := lruRemoveOldest_length vLen hne
          have : (lruRemoveOldest vLen c).entries.length ≤ n := by
            have : c.entries.length ≠ 0 := fun h => hne (List.length_eq_zero.mp h)
            omega
          have := ih _ this (lruRemoveOldest_sum vLen hs)
            (by rwa [lruRemoveOldest_maxBytes])
          exact this
      · rename_i hcond
        push_neg at hcond
        exact hcond (by omega)

/-- Byte-budget invariant of claim C1. -/
def lruInvB (vLen : V → Nat) (maxB : Int) (c : Lru V) : Prop :=
  c.maxBytes = maxB ∧ c.nbytes = sumSizes vLen c.entries ∧
    (0 < maxB → c.nbytes ≤ maxB)

theorem lruInvB_removeOldest (vLen : V → Nat) {maxB : Int} {c : Lru V}
    (h : lruInvB vLen maxB c) : lruInvB vLen maxB (lruRemoveOldest vLen c) := by
  obtain ⟨h1, h2, h3⟩ := h
  refine ⟨by rw [lruRemoveOldest_maxBytes, h1], lruRemoveOldest_sum vLen h2, ?_⟩
  intro hm
  exact le_trans (lruRemoveOldest_nbytes_le vLen c) (h3 hm)

theorem lruInvB_get (vLen : V → Nat) {maxB : Int} {c : Lru V}
    (h : lruInvB vLen maxB c) (t : Nat) (k : String) :
    lruInvB vLen maxB (lruGet vLen t c k).2 := by
  obtain ⟨h1, h2, h3⟩ := h
  unfold lruGet
  cases hf : c.entries.find? (fun e => e.key == k) with
  | none => exact ⟨h1, h2, h3⟩
  | some e =>
      have hperm := find?_perm_eraseP hf
      refine ⟨h1, ?_, ?_⟩
      · have := sumSizes_perm vLen hperm
        simp only [sumSizes_cons] at this ⊢
        rw [h2, this]
        rfl
      · exact h3

theorem lruInvB_add (vLen : V → Nat) {maxB : Int} {c : Lru V}
    (h : lruInvB vLen maxB c) (t : Nat) (k : String) (v : V) :
    lruInvB vLen maxB (lruAdd vLen t c k v) := by
  obtain ⟨h1, h2, h3⟩ := h
  unfold lruAdd evictLoop
  set c' :=
    match c.entries.find? (fun e => e.key == k) with
    | some e =>
        { c with
          entries :=
            { key := k, value := v, stamp := t } ::
              c.entries.eraseP (fun e => e.key == k),
          nbytes := c.nbytes + (vLen v : Int) - (vLen e.value : Int) }
    | none =>
        { c with
          entries := { key := k, value := v, stamp := t } :: c.entries,
          nbytes := c.nbytes + (k.utf8ByteSize : Int) + (vLen v : Int) }
    with hc'
  have hsum : c'.nbytes = sumSizes vLen c'.entries := by
    rw [hc']
    cases hf : c.entries.find? (fun e => e.key == k) with
    | none =>
        simp only [sumSizes_cons, entrySize, h2]
        omega
    | some e =>
        have hperm := find?_perm_eraseP hf
        have hkey : e.key = k := by
          have := List.find?_some hf
          exact eq_of_beq this
        have := sumSizes_perm vLen hperm
        simp only [sumSizes_cons, entrySize, hkey] at this ⊢
        rw [h2, this]
        omega
  have hmax : c'.maxBytes = maxB := by
    rw [hc']
    cases c.entries.find? (fun e => e.key == k) <;> simpa using h1
  refine ⟨by rw [evictGo_maxBytes, hmax], evictGo_sum vLen _ _ hsum, ?_⟩
  intro hm
  have := evictGo_le vLen c'.entries.length c' le_rfl hsum (by rw [hmax]; exact hm)
  rwa [evictGo_maxBytes, hmax] at this

theorem lruInvB_clear (vLen : V → Nat) {maxB : Int} {c : Lru V}
    (h : lruInvB vLen maxB c) : lruInvB vLen maxB (lruClear vLen c) := by
  unfold lruClear
  generalize c.entries.length = fuel
  induction fuel generalizing c with
  | zero => simpa [clearGo] using h
  | succ n ih =>
      unfold clearGo
      split
      · exact ih (lruInvB_removeOldest vLen h)
      · exact h

theorem lruInvB_step (vLen : V → Nat) {maxB : Int} {c : Lru V}
    (h : lruInvB vLen maxB c) (t : Nat) (op : LruOp V) :
    lruInvB vLen maxB (lruStep vLen t c op) := by
  cases op with
  | add k v => exact lruInvB_add vLen h t k v
  | get k => exact lruInvB_get vLen h t k
  | removeOldest => exact lruInvB_removeOldest vLen h
  | clear => exact lruInvB_clear vLen h

theorem lruInvB_runFrom (vLen : V → Nat) (maxB : Int) (ops : List (LruOp V)) :
    ∀ (t : Nat) (c : Lru V), lruInvB vLen maxB c →
      lruInvB vLen maxB (lruRunFrom vLen t c ops) := by
  induction ops with
  | nil => intro t c h; exact h
  | cons op ops ih =>
      intro t c h
      exact ih (t + 1) _ (lruInvB_step vLen h t op)

theorem lruInvB_new (vLen : V → Nat) (maxB : Int) :
    lruInvB vLen maxB (lruNew (V := V) maxB) := by
  refine ⟨rfl, by simp [lruNew, sumSizes], ?_⟩
  intro h
  simp [lruNew]
  omega

/-- Eviction loop on a cache whose front entry alone exceeds a positive
`maxBytes` empties the cache and resets `nbytes` to `0`. -/
theorem evictGo_oversized (vLen : V → Nat) (fuel : Nat) :
    ∀ (c : Lru V) (e : Entry V) (rest : List (Entry V)),
      c.entries = e :: rest → c.entries.length ≤ fuel →
      c.nbytes = sumSizes vLen c.entries → 0 < c.maxBytes →
      c.maxBytes < entrySize vLen e →
      (evictGo vLen fuel c).entries = [] ∧ (evictGo vLen fuel c).nbytes = 0 := by
  induction fuel with
  | zero =>
      intro c e rest he hf _ _ _
      rw [he] at hf
      simp at hf
  | succ n ih =>
      intro c e rest he hf hs hm hos
      have hrest_nonneg : 0 ≤ sumSizes vLen rest := sumSizes_nonneg vLen rest
      have hcond : c.maxBytes ≠ 0 ∧ c.nbytes > c.maxBytes := by
        constructor
        · omega
        · rw [hs, he, sumSizes_cons]
          omega
      unfold evictGo
      rw [if_pos hcond]
      have hne : c.entries ≠ [] := by rw [he]; exact List.cons_ne_nil e rest
      cases hrest : rest.getLast? with
      | none =>
          -- `rest = []`: the single front entry is removed, leaving an empty
          -- cache on which the loop no longer changes anything.
          have hrnil : rest = [] := List.getLast?_eq_none_iff.mp hrest
          subst hrnil
          have hg : c.entries.getLast? = some e := by rw [he]; rfl
          have hstep : (lruRemoveOldest vLen c).entries = []
              ∧ (lruRemoveOldest vLen c).nbytes = 0 := by
            unfold lruRemoveOldest
            rw [hg]
            constructor
            · simp [he]
            · simp only
              rw [hs, he, sumSizes_cons]
              simp [sumSizes]
          have hnil : ∀ m (c' : Lru V), c'.entries = [] → c'.nbytes = 0 →
              (evictGo vLen m c').entries = [] ∧ (evictGo vLen m c').nbytes = 0 := by
            intro m
            induction m with
            | zero => intro c' h1 h2; exact ⟨h1, h2⟩
            | succ m' ihm =>
                intro c' h1 h2
                unfold evictGo
                split
                · rename_i hcc
                  exact ihm _ (by simp [lruRemoveOldest, List.getLast?_eq_none_iff.mpr h1, h1])
                    (by simp [lruRemoveOldest, List.getLast?_eq_none_iff.mpr h1, h2])
                · exact ⟨h1, h2⟩
          exact hnil n _ hstep.1 hstep.2
      | some l =>
          -- `rest` is nonempty: its last element is dropped and the front
          -- entry is still oversized, so the induction hypothesis applies.
          have hg : c.entries.getLast? = some l := by
            rw [he, List.getLast?_cons, hrest]
            rfl
          have hrne : rest ≠ [] := by
            intro hr; rw [hr] at hrest; simp at hrest
          have hdrop : (e :: rest).dropLast = e :: rest.dropLast := by
            cases rest with
            | nil => exact absurd rfl hrne
            | cons a as => rfl
          apply ih (lruRemoveOldest vLen c) e rest.dropLast
          · unfold lruRemoveOldest
            rw [hg]
            simp only
            rw [he, hdrop]
          · rw [lruRemoveOldest_length vLen hne, he]
            rw [he] at hf
            simp at hf ⊢
            omega
          · exact lruRemoveOldest_sum vLen hs
          · rwa [lruRemoveOldest_maxBytes]
          · rwa [lruRemoveOldest_maxBytes]

/-- `lruAdd` always places the freshly written entry at the head before the
eviction loop runs; this computes that intermediate state's shape. -/
theorem lruAdd_oversized (vLen : V → Nat) {c : Lru V} {maxB : Int}
    (hinv : lruInvB vLen maxB c) (t : Nat) (k : String) (v : V)
    (hm : 0 < maxB)
    (hos : maxB < (k.utf8ByteSize : Int) + (vLen v : Int)) :
    (lruAdd vLen t c k v).entries = [] ∧ (lruAdd vLen t c k v).nbytes = 0 := by
  obtain ⟨h1, h2, _⟩ := hinv
  unfold lruAdd evictLoop
  cases hf : c.entries.find? (fun e => e.key == k) with
  | some e =>
      have hb := List.find?_some hf
      have hkey : e.key = k := eq_of_beq hb
      have hperm := find?_perm_eraseP hf
      apply evictGo_oversized vLen _ _ _ _ rfl le_rfl
      · simp only [sumSizes_cons]
        have := sumSizes_perm vLen hperm
        rw [sumSizes_cons] at this
        simp only [entrySize, hkey] at this ⊢
        rw [h2, this]
        omega
      · simpa using (h1 ▸ hm)
      · simpa [entrySize] using (h1 ▸ hos)
  | none =>
      apply evictGo_oversized vLen _ _ _ _ rfl le_rfl
      · simp only [sumSizes_cons, entrySize]
        rw [h2]
        omega
      · simpa using (h1 ▸ hm)
      · simpa [entrySize] using (h1 ▸ hos)

/-! ### Recency history (claim C9)

`accesses op k` says that operation `op` is a completed access of key `k`:
an `Add` of `k`, or a `Get` of `k` (a `Get` of a key held in the cache is a
hit and moves it to the front; a `Get` of an absent key touches no entry, and
no entry for that key can be live afterwards, so the clause below is stated
for all `Get k` without loss).  `histInv ops es` captures the recency-order
contract: keys are unique, stamps strictly decrease from front to back, and
each entry's stamp is the index of the last operation in `ops` that accessed
its key. -/

def accesses : LruOp V → String → Bool
  | .add k _, s => k == s
  | .get k, s => k == s
  | .removeOldest, _ => false
  | .clear, _ => false

def histInv (ops : List (LruOp V)) (es : List (Entry V)) : Prop :=
  (es.map (·.key)).Nodup ∧
  es.Pairwise (fun a b => b.stamp < a.stamp) ∧
  ∀ e ∈ es, e.stamp < ops.length ∧
    (∃ op, ops[e.stamp]? = some op ∧ accesses op e.key = true) ∧
    (∀ t op, e.stamp < t → ops[t]? = some op → accesses op e.key = false)

theorem concat_getElem?_cases {α : Type _} {l : List α} {a b : α} {t : Nat}
    (h : (l ++ [a])[t]? = some b) :
    (t < l.length ∧ l[t]? = some b) ∨ (t = l.length ∧ b = a) := by
  by_cases ht : t < l.length
  · left
    refine ⟨ht, ?_⟩
    rwa [List.getElem?_append_left ht] at h
  · right
    have hlen : t < l.length + 1 := by
      by_contra hc
      rw [List.getElem?_eq_none (by simp; omega)] at h
      exact absurd h (by simp)
    have heq : t = l.length := by omega
    subst heq
    rw [List.getElem?_concat_length] at h
    exact ⟨rfl, (Option.some_inj.mp h).symm⟩

theorem histInv_sublist {ops : List (LruOp V)} {es es' : List (Entry V)}
    (hsub : es'.Sublist es) (h : histInv ops es) : histInv ops es' := by
  obtain ⟨hnd, hpw, hh⟩ := h
  exact ⟨hnd.sublist (hsub.map (·.key)), hpw.sublist hsub,
    fun e he => hh e (hsub.subset he)⟩

/-- Extending the trace by an operation that accesses none of the live keys
preserves the history invariant. -/
theorem histInv_extend {ops : List (LruOp V)} {es : List (Entry V)}
    (h : histInv ops es) {op : LruOp V}
    (hop : ∀ e ∈ es, accesses op e.key = false) :
    histInv (ops ++ [op]) es := by
  obtain ⟨hnd, hpw, hh⟩ := h
  refine ⟨hnd, hpw, fun e he => ?_⟩
  obtain ⟨hlt, ⟨op', hop', hacc⟩, hlast⟩ := hh e he
  refine ⟨by simp; omega, ⟨op', by rwa [List.getElem?_append_left hlt], hacc⟩, ?_⟩
  intro t op'' ht hget
  rcases concat_getElem?_cases hget with ⟨ht', hget'⟩ | ⟨ht', rfl⟩
  · exact hlast t op'' ht hget'
  · exact hop e he

/-- The invariant after pushing a fresh front entry for key `k`, provided no
surviving entry has key `k`, all surviving stamps are older than `n`, and the
new trace element at index `n = ops.length` accesses `k`. -/
theorem histInv_push {ops : List (LruOp V)} {es rest : List (Entry V)}
    {op : LruOp V} {k : String} {v : V}
    (h : histInv ops es) (hsub : rest.Sublist es)
    (hk : ∀ e ∈ rest, e.key ≠ k)
    (hacc : accesses op k = true)
    (haccOnly : ∀ s, accesses op s = true → s = k) :
    histInv (ops ++ [op]) ({ key := k, value := v, stamp := ops.length } :: rest) := by
  obtain ⟨hnd, hpw, hh⟩ := h
  have hrest : histInv (ops ++ [op]) rest := by
    refine histInv_extend (histInv_sublist hsub ⟨hnd, hpw, hh⟩) ?_
    intro e he
    by_contra hc
    have : accesses op e.key = true := by
      cases hacc' : accesses op e.key
      · exact absurd hacc' hc
      · rfl
    exact hk e he (haccOnly _ this)
  obtain ⟨hnd', hpw', hh'⟩ := hrest
  refine ⟨?_, ?_, ?_⟩
  · simp only [List.map_cons]
    refine List.nodup_cons.mpr ⟨?_, hnd'⟩
    intro hmem
    obtain ⟨e, he, hke⟩ := List.mem_map.mp hmem
    exact hk e he hke
  · refine List.pairwise_cons.mpr ⟨?_, hpw'⟩
    intro e he
    exact (hh e (hsub.subset he)).1
  · intro e he
    rcases List.mem_cons.mp he with rfl | he'
    · refine ⟨by simp, ⟨op, ?_, hacc⟩, ?_⟩
      · simp only
        exact List.getElem?_concat_length ops op
      · intro t op'' ht hget
        simp only at ht
        rcases concat_getElem?_cases hget with ⟨ht', _⟩ | ⟨ht', _⟩ <;> omega
    · exact hh' e he'

theorem lruRemoveOldest_entries_sublist (vLen : V → Nat) (c : Lru V) :
    (lruRemoveOldest vLen c).entries.Sublist c.entries := by
  unfold lruRemoveOldest
  cases c.entries.getLast? with
  | none => exact List.Sublist.refl _
  | some e => exact List.dropLast_sublist c.entries

theorem clearGo_entries_nil (vLen : V → Nat) (fuel : Nat) :
    ∀ c : Lru V, c.entries.length ≤ fuel →
      (clearGo vLen fuel c).entries = [] := by
  induction fuel with
  | zero =>
      intro c hf
      unfold clearGo
      exact List.length_eq_zero.mp (by omega)
  | succ n ih =>
      intro c hf
      unfold clearGo
      split
      · rename_i hpos
        have hne : c.entries ≠ [] := by
          intro h; rw [h] at hpos; simp at hpos
        apply ih
        rw [lruRemoveOldest_length vLen hne]
        omega
      · rename_i hpos
        push_neg at hpos
        exact List.length_eq_zero.mp (by omega)

/-- Keys surviving `eraseP (·.key == k)` differ from `k`, when the full key
list was duplicate-free and `k` was found. -/
theorem eraseP_keys_ne {es : List (Entry V)} {e : Entry V} {k : String}
    (hnd : (es.map (·.key)).Nodup)
    (hf : es.find? (fun e => e.key == k) = some e) :
    ∀ e' ∈ es.eraseP (fun e => e.key == k), e'.key ≠ k := by
  have hb := List.find?_some hf
  have hkey : e.key = k := eq_of_beq hb
  have hperm := find?_perm_eraseP hf
  have hnd' : ((e :: es.eraseP (fun e => e.key == k)).map (·.key)).Nodup :=
    ((hperm.map (·.key)).nodup_iff).mp hnd
  simp only [List.map_cons, List.nodup_cons] at hnd'
  intro e' he' hke'
  exact hnd'.1 (List.mem_map.mpr ⟨e', he', by rw [hke', hkey]⟩)

/-- One-step preservation of the history invariant, where the step's ghost
timestamp is the length of the trace so far. -/
theorem histInv_step (vLen : V → Nat) {ops : List (LruOp V)} {c : Lru V}
    (h : histInv ops c.entries) (op : LruOp V) :
    histInv (ops ++ [op]) (lruStep vLen ops.length c op).entries := by
  cases op with
  | removeOldest =>
      exact histInv_extend
        (histInv_sublist (lruRemoveOldest_entries_sublist vLen c) h)
        (fun e _ => rfl)
  | clear =>
      have : (lruClear vLen c).entries = [] :=
        clearGo_entries_nil vLen c.entries.length c le_rfl
      rw [lruStep, this]
      exact ⟨List.nodup_nil, List.Pairwise.nil, by simp⟩
  | get k =>
      simp only [lruStep, lruGet]
      cases hf : c.entries.find? (fun e => e.key == k) with
      | none =>
          refine histInv_extend h ?_
          intro e he
          have hne := List.find?_eq_none.mp hf e he
          simp only [accesses, beq_eq_false_iff_ne]
          intro hk
          exact hne (by simp [hk])
      | some e =>
          have hb := List.find?_some hf
          have hkey : e.key = k := eq_of_beq hb
          have hpush := histInv_push (v := e.value) h
            (List.eraseP_sublist c.entries) (eraseP_keys_ne h.1 hf)
            (show accesses (LruOp.get (V := V) k) k = true by simp [accesses]) ?_
          · simpa [hkey] using hpush
          · intro s hs
            exact (show k = s by simpa [accesses] using hs).symm
  | add k v =>
      simp only [lruStep, lruAdd, evictLoop]
      cases hf : c.entries.find? (fun e => e.key == k) with
      | some e =>
          obtain ⟨n, hn⟩ := evictGo_take vLen _ (c := _)
          rw [hn]
          refine histInv_sublist (List.take_sublist _ _) ?_
          exact histInv_push h (List.eraseP_sublist c.entries)
            (eraseP_keys_ne h.1 hf) (by simp [accesses])
            (fun s hs => (show k = s by simpa [accesses] using hs).symm)
      | none =>
          obtain ⟨n, hn⟩ := evictGo_take vLen _ (c := _)
          rw [hn]
          refine histInv_sublist (List.take_sublist _ _) ?_
          refine histInv_push h (List.Sublist.refl _) ?_ (by simp [accesses])
            (fun s hs => (show k = s by simpa [accesses] using hs).symm)
          intro e' he' hke'
          have := List.find?_eq_none.mp hf e' he'
          exact this (by simp [hke'])

theorem lruRunFrom_append (vLen : V → Nat) (l₁ l₂ : List (LruOp V)) :
    ∀ (t : Nat) (c : Lru V),
      lruRunFrom vLen t c (l₁ ++ l₂)
        = lruRunFrom vLen (t + l₁.length) (lruRunFrom vLen t c l₁) l₂ := by
  induction l₁ with
  | nil => intro t c; simp [lruRunFrom]
  | cons op ops ih =>
      intro t c
      show lruRunFrom vLen (t + 1) (lruStep vLen t c op) (ops ++ l₂)
          = lruRunFrom vLen (t + (ops.length + 1))
              (lruRunFrom vLen (t + 1) (lruStep vLen t c op) ops) l₂
      rw [ih]
      congr 1
      omega

/-- The history invariant holds after running any trace from a fresh cache. -/
theorem histInv_run (vLen : V → Nat) (maxB : Int) (ops : List (LruOp V)) :
    histInv ops (lruRun vLen (lruNew (V := V) maxB) ops).entries := by
  induction ops using List.reverseRecOn with
  | nil =>
      exact ⟨List.nodup_nil, List.Pairwise.nil, by simp [lruRun, lruRunFrom, lruNew]⟩
  | append_singleton ops op ih =>
      unfold lruRun at ih ⊢
      rw [lruRunFrom_append vLen ops [op] 0 _]
      simp only [Nat.zero_add, lruRunFrom]
      exact histInv_step vLen ih op

/-- Running a trace extended by one operation is one `lruStep` at timestamp
`ops.length` after running the original trace. -/
theorem lruRun_concat (vLen : V → Nat) (c : Lru V) (ops : List (LruOp V))
    (op : LruOp V) :
    lruRun vLen c (ops ++ [op])
      = lruStep vLen ops.length (lruRun vLen c ops) op := by
  unfold lruRun
  rw [lruRunFrom_append vLen ops [op] 0 c]
  simp [lruRunFrom]

/-- If the front entry fits the budget (or the budget is unbounded), eviction
never removes it: the loop stops no later than when the front entry is the
only one left. -/
theorem evictGo_head (vLen : V → Nat) (fuel : Nat) :
    ∀ (c : Lru V) (e : Entry V) (rest : List (Entry V)),
      c.entries = e :: rest → c.entries.length ≤ fuel →
      c.nbytes = sumSizes vLen c.entries →
      (c.maxBytes = 0 ∨ entrySize vLen e ≤ c.maxBytes) →
      ∃ rest', (evictGo vLen fuel c).entries = e :: rest' := by
  induction fuel with
  | zero =>
      intro c e rest he hf _ _
      rw [he] at hf
      simp at hf
  | succ n ih =>
      intro c e rest he hf hs hok
      unfold evictGo
      by_cases hcond : c.maxBytes ≠ 0 ∧ c.nbytes > c.maxBytes
      · rw [if_pos hcond]
        have hok' : entrySize vLen e ≤ c.maxBytes := by
          rcases hok with h0 | hle
          · exact absurd h0 hcond.1
          · exact hle
        have hrne : rest ≠ [] := by
          rintro rfl
          rw [hs, he, sumSizes_cons] at hcond
          simp [sumSizes] at hcond
          omega
        have hg : c.entries.getLast? = some (rest.getLast hrne) := by
          rw [he, List.getLast?_cons, List.getLast?_eq_getLast rest hrne]
          rfl
        have hdrop : (e :: rest).dropLast = e :: rest.dropLast := by
          cases rest with
          | nil => exact absurd rfl hrne
          | cons a as => rfl
        apply ih (lruRemoveOldest vLen c) e rest.dropLast
        · unfold lruRemoveOldest
          rw [hg]
          simp only
          rw [he, hdrop]
        · have hne : c.entries ≠ [] := by rw [he]; exact List.cons_ne_nil e rest
          rw [lruRemoveOldest_length vLen hne, he]
          rw [he] at hf
          simp at hf ⊢
          omega
        · exact lruRemoveOldest_sum vLen hs
        · rw [lruRemoveOldest_maxBytes]
          exact Or.inr hok'
      · rw [if_neg hcond]
        exact ⟨rest, he⟩

/-- After `Add(k, v)`, the entry for `k` sits at the front provided the new
entry itself fits the byte budget (or the budget is unbounded). -/
theorem lruAdd_head (vLen : V → Nat) {c : Lru V} {maxB : Int}
    (hinv : lruInvB vLen maxB c) (t : Nat) (k : String) (v : V)
    (hok : maxB = 0 ∨ (k.utf8ByteSize : Int) + (vLen v : Int) ≤ maxB) :
    ∃ rest, (lruAdd vLen t c k v).entries
      = { key := k, value := v, stamp := t } :: rest := by
  obtain ⟨h1, h2, _⟩ := hinv
  unfold lruAdd evictLoop
  cases hf : c.entries.find? (fun e => e.key == k) with
  | some e =>
      have hb := List.find?_some hf
      have hkey : e.key = k := eq_of_beq hb
      have hperm := find?_perm_eraseP hf
      apply evictGo_head vLen _ _ _ _ rfl le_rfl
      · simp only [sumSizes_cons]
        have := sumSizes_perm vLen hperm
        rw [sumSizes_cons] at this
        simp only [entrySize, hkey] at this ⊢
        rw [h2, this]
        omega
      · rcases hok with h0 | hle
        · exact Or.inl (by rw [h1, h0])
        · exact Or.inr (by simpa [entrySize, h1] using hle)
  | none =>
      apply evictGo_head vLen _ _ _ _ rfl le_rfl
      · simp only [sumSizes_cons, entrySize]
        rw [h2]
        omega
      · rcases hok with h0 | hle
        · exact Or.inl (by rw [h1, h0])
        · exact Or.inr (by simpa [entrySize, h1] using hle)

/-! ### Claims C1, C9, C10 -/

/-- C1.  For every sequence of LRU operations (Add, Get, RemoveOldest, Clear)
starting from `New(maxBytes, onEvicted)` with a non-negative byte budget
(`maxBytes < 0` makes the eviction loop of the Go source spin forever, so no
operation completes there), after each operation completes `nbytes` equals
the sum of `len(key) + value.Len()` over the entries in the cache, and
whenever `maxBytes > 0` also `nbytes ≤ maxBytes`.  Quantifying over `ops`
covers every prefix of a longer sequence. -/
theorem C1_lru_byte_budget (vLen : V → Nat) (maxB : Int) (_hmb : 0 ≤ maxB)
    (ops : List (LruOp V)) :
    (lruRun vLen (lruNew maxB) ops).nbytes
      = sumSizes vLen (lruRun vLen (lruNew maxB) ops).entries ∧
    (0 < maxB → (lruRun vLen (lruNew maxB) ops).nbytes ≤ maxB) := by
  have h := lruInvB_runFrom vLen maxB ops 0 _ (lruInvB_new vLen maxB)
  exact ⟨h.2.1, h.2.2⟩

/-- Witness for C1 at a concrete trace. -/
theorem C1_lru_byte_budget_witness :
    (0 : Int) ≤ 10 ∧
    ((lruRun (V := Nat) id (lruNew 10) [.add "a" 3, .add "b" 9]).nbytes
        = sumSizes id (lruRun (V := Nat) id
            (lruNew 10) [.add "a" 3, .add "b" 9]).entries ∧
      ((0 : Int) < 10 →
        (lruRun (V := Nat) id (lruNew 10) [.add "a" 3, .add "b" 9]).nbytes ≤ 10)) :=
  ⟨by decide, C1_lru_byte_budget id 10 (by decide) [.add "a" 3, .add "b" 9]⟩

/-- C9 counterexample.  With `maxBytes = 1`, `Add("ab", v)` for a value of
length 2 inserts an entry of size 4 > 1; the eviction loop then removes every
entry, including the one just inserted, so immediately after `Add` returns
there is no entry for `"ab"` at the front of the recency list (the list is
empty), contradicting the claim as stated. -/
theorem C9_recency_counterexample :
    ¬ (((lruRun (V := Nat) id (lruNew 1) [.add "ab" 2]).entries.map (·.key)).head?
        = some "ab") := by decide

/-- C9 (amended).  After `Get(k)` returns with `present = true`, the entry
for `k` is at the front.  After `Add(k, v)` returns, the entry for `k` is at
the front provided the new entry itself fits the byte budget
(`maxBytes = 0` or `len(k) + v.Len() ≤ maxBytes`); otherwise the eviction
loop has emptied the cache (claim C10).  Enumerating entries front to back
lists them in order of their last completed access, most recent first: the
ghost access stamps strictly decrease along the list, and each live entry's
stamp is the index of the last operation in the trace that accessed its key
(`histInv`). -/
theorem C9_recency (vLen : V → Nat) (maxB : Int) (_hmb : 0 ≤ maxB)
    (ops : List (LruOp V)) (k : String) (v : V) :
    ((lruGet vLen ops.length (lruRun vLen (lruNew maxB) ops) k).1.isSome →
      (((lruRun vLen (lruNew maxB) (ops ++ [.get k])).entries.map (·.key)).head?
        = some k)) ∧
    ((maxB = 0 ∨ (k.utf8ByteSize : Int) + (vLen v : Int) ≤ maxB) →
      (((lruRun vLen (lruNew maxB) (ops ++ [.add k v])).entries.map (·.key)).head?
        = some k)) ∧
    histInv ops (lruRun vLen (lruNew maxB) ops).entries := by
  refine ⟨?_, ?_, histInv_run vLen maxB ops⟩
  · intro hsome
    rw [lruRun_concat]
    simp only [lruStep]
    unfold lruGet at hsome ⊢
    cases hf : (lruRun vLen (lruNew maxB) ops).entries.find? (fun e => e.key == k) with
    | none => rw [hf] at hsome; simp at hsome
    | some e =>
        have hb := List.find?_some hf
        have hkey : e.key = k := eq_of_beq hb
        simp [hkey]
  · intro hok
    rw [lruRun_concat]
    simp only [lruStep]
    have hinv : lruInvB vLen maxB (lruRun vLen (lruNew maxB) ops) :=
      lruInvB_runFrom vLen maxB ops 0 _ (lruInvB_new vLen maxB)
    obtain ⟨rest, hrest⟩ := lruAdd_head vLen hinv ops.length k v hok
    rw [hrest]
    simp

/-- Witness for C9 at a concrete trace: key `"a"` is present, and the fresh
add of `"c"` (size 4 ≤ 10) is placed at the front. -/
theorem C9_recency_witness :
    (0 : Int) ≤ 10 ∧
    (((lruGet (V := Nat) id 2
          (lruRun (V := Nat) id (lruNew 10) [.add "a" 3, .add "b" 3]) "a").1.isSome →
        (((lruRun (V := Nat) id (lruNew 10)
            ([.add "a" 3, .add "b" 3] ++ [.get "a"])).entries.map (·.key)).head?
          = some "a")) ∧
      (((10 : Int) = 0 ∨ (("a".utf8ByteSize : Int) + ((3 : Nat) : Int) ≤ 10)) →
        (((lruRun (V := Nat) id (lruNew 10)
            ([.add "a" 3, .add "b" 3] ++ [.add "a" 3])).entries.map (·.key)).head?
          = some "a")) ∧
      histInv [.add "a" 3, .add "b" 3]
        (lruRun (V := Nat) id (lruNew 10) [.add "a" 3, .add "b" 3]).entries) :=
  ⟨by decide, C9_recency id 10 (by decide) [.add "a" 3, .add "b" 3] "a" 3⟩

/-- C10.  With `0 < maxBytes` and `len(k) + v.Len() > maxBytes`, `Add(k, v)`
leaves the cache empty: the eviction loop removes every entry including the
one just inserted, `nbytes` is `0`, and a subsequent `Get(k)` misses. -/
theorem C10_oversized_add (vLen : V → Nat) (maxB : Int) (ops : List (LruOp V))
    (k : String) (v : V) (hm : 0 < maxB)
    (hos : maxB < (k.utf8ByteSize : Int) + (vLen v : Int)) :
    (lruRun vLen (lruNew maxB) (ops ++ [.add k v])).entries = [] ∧
    (lruRun vLen (lruNew maxB) (ops ++ [.add k v])).nbytes = 0 ∧
    (lruGet vLen (ops.length + 1)
        (lruRun vLen (lruNew maxB) (ops ++ [.add k v])) k).1 = none := by
  have hinv : lruInvB vLen maxB (lruRun vLen (lruNew maxB) ops) :=
    lruInvB_runFrom vLen maxB ops 0 _ (lruInvB_new vLen maxB)
  rw [lruRun_concat]
  simp only [lruStep]
  have h := lruAdd_oversized vLen hinv ops.length k v hm hos
  refine ⟨h.1, h.2, ?_⟩
  unfold lruGet
  rw [h.1]
  rfl

/-- Witness for C10: `maxBytes = 3`, key `"ab"`, value length 2 (entry size
4 > 3), after a prior successful add. -/
theorem C10_oversized_add_witness :
    ((0 : Int) < 3 ∧ (3 : Int) < (("ab".utf8ByteSize : Int) + ((2 : Nat) : Int))) ∧
    ((lruRun (V := Nat) id (lruNew 3) ([.add "x" 1] ++ [.add "ab" 2])).entries = [] ∧
     (lruRun (V := Nat) id (lruNew 3) ([.add "x" 1] ++ [.add "ab" 2])).nbytes = 0 ∧
     (lruGet (V := Nat) id 2
        (lruRun (V := Nat) id (lruNew 3) ([.add "x" 1] ++ [.add "ab" 2])) "ab").1
       = none) :=
  ⟨⟨by decide, by decide⟩,
   C10_oversized_add id 3 [.add "x" 1] "ab" 2 (by decide) (by decide)⟩

/-! ## Consistent-hash ring (`consistenthash` package, src/cache.go)

`Map` mirrors the Go struct: a hash function (`crc32.ChecksumIEEE` is the
Go default when `nil` is passed; the embedding takes the resolved function
as a parameter), a replica count, the array of virtual-node hashes, and the
hash-to-node map.  Go's map assignment `m.hashMap[hash] = key` is modelled
by functional update; a missing map read yields the zero value `""`.
Hashes are `uint32` widened to `int` in Go, hence non-negative: `Nat`. -/

namespace CH

structure Map where
  hash : String → Nat
  replicas : Nat
  keys : List Nat
  hashMap : Nat → Option String

/-- `consistenthash.New(replicas, fn)` with the default already resolved. -/
def new (replicas : Nat) (fn : String → Nat) : Map :=
  { hash := fn, replicas := replicas, keys := [], hashMap := fun _ => none }

/-- One iteration of the inner loop of `Map.Add`: hash
`strconv.Itoa(i) + key`, append it to `keys` and record `hash ↦ key`
(Go map assignment overwrites). -/
def addStep (key : String) (m' : Map) (i : Nat) : Map :=
  { m' with
    keys := m'.keys ++ [m'.hash (toString i ++ key)],
    hashMap := fun x =>
      if x = m'.hash (toString i ++ key) then some key
      else m'.hashMap x }

/-- The inner loop of `Map.Add` for a single real key: for each
`i ∈ [0, replicas)`, run `addStep`. -/
def addKey (m : Map) (key : String) : Map :=
  (List.range m.replicas).foldl (addStep key) m

/-- `Map.Add(keys...)`: hash all replicas of all keys, then sort the hash
array ascending (`sort.Ints`); a correct sort of `Nat`s is unique, so
insertion sort represents it. -/
def add (m : Map) (ks : List String) : Map :=
  let m' := ks.foldl addKey m
  { m' with keys := m'.keys.insertionSort (· ≤ ·) }

/-- Go's `sort.Search(n, f)` loop: `i, j := 0, n`; while `i < j`, probe
`h := (i+j)/2` and shrink to `[h+1, j)` or `[i, h)`.  Each iteration
strictly shrinks `j - i`, so `n` iterations suffice; `searchGo` runs the
loop with that fuel.  (`uint(i+j) >> 1` never overflows for list-indexing
sizes; on `Nat` it is exactly `(i+j)/2`.) -/
def searchGo (f : Nat → Bool) : Nat → Nat → Nat → Nat
  | 0, i, _ => i
  | fuel + 1, i, j =>
      if i < j then
        if f ((i + j) / 2) = false then searchGo f fuel ((i + j) / 2 + 1) j
        else searchGo f fuel i ((i + j) / 2)
      else i

/-- `sort.Search(n, f)`. -/
def sortSearch (n : Nat) (f : Nat → Bool) : Nat :=
  searchGo f n 0 n

/-- `Map.Get(key)`: empty ring yields `""`; otherwise binary-search the
first virtual hash `≥ hash(key)`, wrapping via `idx % len(keys)`. -/
def Map.get (m : Map) (key : String) : String :=
  if m.keys.length = 0 then ""
  else
    let h := m.hash key
    let idx := sortSearch m.keys.length (fun i => decide (h ≤ m.keys.getD i 0))
    (m.hashMap (m.keys.getD (idx % m.keys.length) 0)).getD ""

/-- Loop invariant proof for Go's `sort.Search`: with enough fuel, on a
predicate monotone over `[i, j)`, the loop returns the least index in
`[i, j]` at which `f` holds (or `j` when it never does). -/
theorem searchGo_spec (f : Nat → Bool) :
    ∀ (fuel i j : Nat), j - i ≤ fuel → i ≤ j →
      (∀ a b, i ≤ a → a ≤ b → b < j → f a = true → f b = true) →
      i ≤ searchGo f fuel i j ∧ searchGo f fuel i j ≤ j ∧
      (∀ t, i ≤ t → t < searchGo f fuel i j → f t = false) ∧
      (searchGo f fuel i j < j → f (searchGo f fuel i j) = true) := by
  intro fuel
  induction fuel with
  | zero =>
      intro i j hfuel hij _
      have hji : i = j := by omega
      subst hji
      unfold searchGo
      exact ⟨le_rfl, le_rfl, fun t h1 h2 => absurd h2 (by omega), fun h => absurd h (by omega)⟩
  | succ n ih =>
      intro i j hfuel hij hmono
      unfold searchGo
      by_cases hlt : i < j
      · rw [if_pos hlt]
        by_cases hfh : f ((i + j) / 2) = false
        · rw [if_pos hfh]
          have hrec := ih ((i + j) / 2 + 1) j (by omega) (by omega)
            (fun a b ha hab hb => hmono a b (by omega) hab hb)
          obtain ⟨h1, h2, h3, h4⟩ := hrec
          refine ⟨by omega, h2, ?_, h4⟩
          intro t ht1 ht2
          by_cases htm : t ≤ (i + j) / 2
          · cases hft : f t with
            | false => rfl
            | true =>
                exact absurd (hmono t ((i + j) / 2) ht1 htm (by omega) hft) (by simp [hfh])
          · exact h3 t (by omega) ht2
        · rw [if_neg hfh]
          have hft : f ((i + j) / 2) = true := by
            cases hf' : f ((i + j) / 2) with
            | false => exact absurd hf' hfh
            | true => rfl
          have hrec := ih i ((i + j) / 2) (by omega) (by omega)
            (fun a b ha hab hb => hmono a b ha hab (by omega))
          obtain ⟨h1, h2, h3, h4⟩ := hrec
          refine ⟨h1, by omega, h3, ?_⟩
          intro _
          by_cases hr : searchGo f n i ((i + j) / 2) < (i + j) / 2
          · exact h4 hr
          · have : searchGo f n i ((i + j) / 2) = (i + j) / 2 := by omega
            rw [this]
            exact hft
      · rw [if_neg hlt]
        exact ⟨le_rfl, hij, fun t h1 h2 => absurd h2 (by omega),
          fun h => absurd h (by omega)⟩

/-- Elements of a `≤`-sorted list are monotone in the index. -/
theorem sorted_getD_mono {l : List Nat} (hs : List.Sorted (· ≤ ·) l)
    {a b : Nat} (hab : a ≤ b) (hb : b < l.length) :
    l.getD a 0 ≤ l.getD b 0 := by
  rcases eq_or_lt_of_le hab with rfl | hlt
  · exact le_rfl
  · rw [List.getD_eq_getElem l 0 (by omega), List.getD_eq_getElem l 0 hb]
    exact List.pairwise_iff_get.mp hs ⟨a, by omega⟩ ⟨b, hb⟩ hlt

/-! ### Order-independence machinery (claim C6) -/

/-- Functional update, the meaning of one Go map assignment
`m.hashMap[p.1] = p.2`. -/
def upd (f : Nat → Option String) (p : Nat × String) : Nat → Option String :=
  fun x => if x = p.1 then some p.2 else f x

/-- All `(virtual hash, real key)` pairs produced by `Add(ks...)`, in
insertion order. -/
def vnodeHashes (hash : String → Nat) (replicas : Nat) (ks : List String) :
    List (Nat × String) :=
  ks.flatMap (fun key =>
    (List.range replicas).map (fun i => (hash (toString i ++ key), key)))

theorem addStep_foldl (key : String) (l : List Nat) :
    ∀ m : Map,
      (l.foldl (addStep key) m).hash = m.hash ∧
      (l.foldl (addStep key) m).replicas = m.replicas ∧
      (l.foldl (addStep key) m).keys
        = m.keys ++ l.map (fun i => m.hash (toString i ++ key)) ∧
      (l.foldl (addStep key) m).hashMap
        = (l.map (fun i => (m.hash (toString i ++ key), key))).foldl upd
            m.hashMap := by
  induction l with
  | nil => intro m; exact ⟨rfl, rfl, by simp, rfl⟩
  | cons i l ih =>
      intro m
      obtain ⟨h1, h2, h3, h4⟩ := ih (addStep key m i)
      refine ⟨h1, h2, ?_, ?_⟩
      · rw [List.foldl_cons, h3]
        simp [addStep, List.append_assoc]
      · rw [List.foldl_cons, h4]
        rfl

theorem addKey_foldl (ks : List String) :
    ∀ m : Map,
      (ks.foldl addKey m).hash = m.hash ∧
      (ks.foldl addKey m).replicas = m.replicas ∧
      (ks.foldl addKey m).keys
        = m.keys ++ (vnodeHashes m.hash m.replicas ks).map Prod.fst ∧
      (ks.foldl addKey m).hashMap
        = (vnodeHashes m.hash m.replicas ks).foldl upd m.hashMap := by
  induction ks with
  | nil => intro m; exact ⟨rfl, rfl, by simp [vnodeHashes], rfl⟩
  | cons key ks ih =>
      intro m
      obtain ⟨g1, g2, g3, g4⟩ := addStep_foldl key (List.range m.replicas) m
      obtain ⟨h1, h2, h3, h4⟩ := ih (addKey m key)
      have hkeys : vnodeHashes m.hash m.replicas (key :: ks)
          = (List.range m.replicas).map (fun i => (m.hash (toString i ++ key), key))
            ++ vnodeHashes m.hash m.replicas ks := by
        simp [vnodeHashes]
      refine ⟨?_, ?_, ?_, ?_⟩
      · rw [List.foldl_cons, h1]
        exact g1
      · rw [List.foldl_cons, h2]
        exact g2
      · rw [List.foldl_cons, h3]
        unfold addKey at *
        rw [g3, g1, g2, hkeys]
        simp [List.append_assoc]
      · rw [List.foldl_cons, h4]
        unfold addKey at *
        rw [g4, g1, g2, hkeys, List.foldl_append]

/-- `Map.add` field characterization: the final hash array is the sorted
virtual hashes appended to the old ones, and the final map is the fold of
all the assignments. -/
theorem add_fields (m : Map) (ks : List String) :
    (add m ks).hash = m.hash ∧
    (add m ks).replicas = m.replicas ∧
    (add m ks).keys
      = (m.keys ++ (vnodeHashes m.hash m.replicas ks).map Prod.fst).insertionSort
          (· ≤ ·) ∧
    (add m ks).hashMap = (vnodeHashes m.hash m.replicas ks).foldl upd m.hashMap := by
  obtain ⟨h1, h2, h3, h4⟩ := addKey_foldl ks m
  exact ⟨h1, h2, by rw [add]; simp only [h3], h4⟩

theorem foldl_upd_congr (ps : List (Nat × String)) :
    ∀ f g : Nat → Option String, (∀ x, f x = g x) →
      ∀ x, (ps.foldl upd f) x = (ps.foldl upd g) x := by
  induction ps with
  | nil => intro f g h x; exact h x
  | cons p ps ih =>
      intro f g h x
      exact ih (upd f p) (upd g p) (fun y => by unfold upd; rw [h y]) x

/-- Folding the map assignments of a duplicate-free batch of virtual hashes
is order-independent. -/
theorem foldl_upd_perm {ps qs : List (Nat × String)} (hperm : ps.Perm qs) :
    (ps.map Prod.fst).Nodup →
      ∀ (f : Nat → Option String) (x : Nat),
        (ps.foldl upd f) x = (qs.foldl upd f) x := by
  induction hperm with
  | nil => intro _ f x; rfl
  | cons p h ih =>
      intro hnd f x
      rw [List.map_cons, List.nodup_cons] at hnd
      exact ih hnd.2 (upd f p) x
  | swap p q l =>
      intro hnd f x
      rw [List.map_cons, List.map_cons, List.nodup_cons] at hnd
      have hne : q.1 ≠ p.1 := by
        intro h
        exact hnd.1 (by rw [h]; exact List.mem_cons_self _ _)
      simp only [List.foldl_cons]
      apply foldl_upd_congr
      intro z
      unfold upd
      by_cases hz1 : z = p.1 <;> by_cases hz2 : z = q.1
      · exact absurd (hz1.symm.trans hz2) (fun h => hne h.symm)
      · rw [if_pos hz1, if_neg hz2, if_pos hz1]
      · rw [if_neg hz1, if_pos hz2, if_pos hz2]
      · rw [if_neg hz1, if_neg hz2, if_neg hz2, if_neg hz1]
  | trans h1 h2 ih1 ih2 =>
      intro hnd f x
      rw [ih1 hnd f x]
      exact ih2 ((h1.map Prod.fst).nodup_iff.mp hnd) f x

/-- `Get` depends only on the hash array, the hash function, and the
pointwise behaviour of the hash-to-node map. -/
theorem get_congr {m1 m2 : Map} (hk : m1.keys = m2.keys)
    (hh : m1.hash = m2.hash) (hm : ∀ x, m1.hashMap x = m2.hashMap x)
    (k : String) : m1.get k = m2.get k := by
  unfold Map.get
  rw [hk, hh]
  by_cases h0 : m2.keys.length = 0
  · rw [if_pos h0, if_pos h0]
  · rw [if_neg h0, if_neg h0]
    simp only [hm]

/-- Sorting is determined by the multiset of elements. -/
theorem insertionSort_perm_eq {l1 l2 : List Nat} (h : l1.Perm l2) :
    l1.insertionSort (· ≤ ·) = l2.insertionSort (· ≤ ·) := by
  refine List.eq_of_perm_of_sorted ?_ (List.sorted_insertionSort _ l1)
    (List.sorted_insertionSort _ l2)
  exact (List.perm_insertionSort _ l1).trans
    (h.trans (List.perm_insertionSort _ l2).symm)

theorem vnodeHashes_perm (hash : String → Nat) (replicas : Nat)
    {ks1 ks2 : List String} (h : ks1.Perm ks2) :
    (vnodeHashes hash replicas ks1).Perm (vnodeHashes hash replicas ks2) := by
  unfold vnodeHashes
  exact h.flatMap_right _

end CH

/-- C6 counterexample.  The claim quantifies over an arbitrary fixed hash
function, but with a colliding hash the Go map assignments overwrite each
other in insertion order: with the constant hash `0`, one replica, and
nodes added as `["A","B"]` versus `["B","A"]`, `Get("x")` returns `"B"` in
the first ring and `"A"` in the second. -/
theorem C6_ring_order_counterexample :
    (CH.add (CH.new 1 (fun _ => 0)) ["A", "B"]).get "x"
      ≠ (CH.add (CH.new 1 (fun _ => 0)) ["B", "A"]).get "x" := by decide

/-- C6 (amended).  In the embedding `ring.Get` is a pure function of the
ring state, so repeated calls agree by definition (the Go `Get` only reads
the ring).  Adding the same real nodes in a different order yields the same
selection for every key, provided the virtual-node hashes are pairwise
distinct — as with CRC32 on the spec's example `{A,B,C} × 50 replicas`;
for colliding hash functions the claim fails (see the counterexample). -/
theorem C6_ring_order_independence (hash : String → Nat) (r : Nat)
    (ks1 ks2 : List String) (hperm : ks1.Perm ks2)
    (hnd : ((CH.vnodeHashes hash r ks1).map Prod.fst).Nodup) (k : String) :
    (CH.add (CH.new r hash) ks1).get k = (CH.add (CH.new r hash) ks2).get k := by
  obtain ⟨a1, a2, a3, a4⟩ := CH.add_fields (CH.new r hash) ks1
  obtain ⟨b1, b2, b3, b4⟩ := CH.add_fields (CH.new r hash) ks2
  have hvperm := CH.vnodeHashes_perm (CH.new r hash).hash (CH.new r hash).replicas hperm
  apply CH.get_congr
  · rw [a3, b3]
    apply CH.insertionSort_perm_eq
    exact List.Perm.append_left _ (hvperm.map Prod.fst)
  · rw [a1, b1]
  · intro x
    rw [a4, b4]
    exact CH.foldl_upd_perm hvperm (by simpa [CH.new] using hnd) _ x

/-- Witness for C6: two-node ring with one replica and an injective hash;
the two insertion orders select the same node for the key `"x"`. -/
theorem C6_ring_order_independence_witness :
    (List.Perm ["A", "BB"] ["BB", "A"] ∧
      ((CH.vnodeHashes (fun s => s.utf8ByteSize) 1 ["A", "BB"]).map Prod.fst).Nodup) ∧
    (CH.add (CH.new 1 (fun s => s.utf8ByteSize)) ["A", "BB"]).get "x"
      = (CH.add (CH.new 1 (fun s => s.utf8ByteSize)) ["BB", "A"]).get "x" :=
  ⟨⟨by decide, by decide⟩,
   C6_ring_order_independence (fun s => s.utf8ByteSize) 1 ["A", "BB"] ["BB", "A"]
     (by decide) (by decide) "x"⟩

/-- C5.  For every ring whose hash array is sorted ascending — every ring
reachable through `New`/`Add` is, since `Add` ends by sorting — and every
key `k`: if the array is empty, `Get` returns `""`; otherwise `Get` returns
`hashMap[keys[i % len]]` where `i` is the smallest index with
`keys[i] ≥ hash(k)` (`i = len`, wrapping to index `0`, when no index
qualifies). -/
theorem C5_ring_get (m : CH.Map) (k : String)
    (hs : List.Sorted (· ≤ ·) m.keys) :
    (m.keys = [] → m.get k = "") ∧
    (m.keys ≠ [] → ∃ i, i ≤ m.keys.length ∧
      (∀ j, j < i → m.keys.getD j 0 < m.hash k) ∧
      (i < m.keys.length → m.hash k ≤ m.keys.getD i 0) ∧
      m.get k = (m.hashMap (m.keys.getD (i % m.keys.length) 0)).getD "") := by
  constructor
  · intro hnil
    unfold CH.Map.get
    rw [if_pos (by rw [hnil]; rfl)]
  · intro hne
    have hlen : m.keys.length ≠ 0 := fun h => hne (List.length_eq_zero.mp h)
    refine ⟨CH.sortSearch m.keys.length
      (fun i => decide (m.hash k ≤ m.keys.getD i 0)), ?_, ?_, ?_, ?_⟩
    case _ =>
      have := CH.searchGo_spec (fun i => decide (m.hash k ≤ m.keys.getD i 0))
        m.keys.length 0 m.keys.length (by omega) (by omega)
        (fun a b _ hab hb hfa => by
          simp only [decide_eq_true_eq] at hfa ⊢
          exact le_trans hfa (CH.sorted_getD_mono hs hab hb))
      exact this.2.1
    case _ =>
      intro j hj
      have hspec := CH.searchGo_spec (fun i => decide (m.hash k ≤ m.keys.getD i 0))
        m.keys.length 0 m.keys.length (by omega) (by omega)
        (fun a b _ hab hb hfa => by
          simp only [decide_eq_true_eq] at hfa ⊢
          exact le_trans hfa (CH.sorted_getD_mono hs hab hb))
      have := hspec.2.2.1 j (by omega) hj
      simp only [decide_eq_false_iff_not, not_le] at this
      exact this
    case _ =>
      intro hi
      have hspec := CH.searchGo_spec (fun i => decide (m.hash k ≤ m.keys.getD i 0))
        m.keys.length 0 m.keys.length (by omega) (by omega)
        (fun a b _ hab hb hfa => by
          simp only [decide_eq_true_eq] at hfa ⊢
          exact le_trans hfa (CH.sorted_getD_mono hs hab hb))
      have := hspec.2.2.2 hi
      simpa using this
    case _ =>
      unfold CH.Map.get
      rw [if_neg hlen]

/-- Witness for C5 on a concrete sorted ring. -/
theorem C5_ring_get_witness :
    List.Sorted (· ≤ ·) [3, 7] ∧
    (([3, 7] : List Nat) = [] →
      CH.Map.get ⟨fun s => s.utf8ByteSize, 1, [3, 7],
        fun h => if h = 3 then some "A" else if h = 7 then some "B" else none⟩ "abcd" = "") ∧
    (([3, 7] : List Nat) ≠ [] → ∃ i, i ≤ ([3, 7] : List Nat).length ∧
      (∀ j, j < i → ([3, 7] : List Nat).getD j 0 < "abcd".utf8ByteSize) ∧
      (i < ([3, 7] : List Nat).length →
        "abcd".utf8ByteSize ≤ ([3, 7] : List Nat).getD i 0) ∧
      CH.Map.get ⟨fun s => s.utf8ByteSize, 1, [3, 7],
          fun h => if h = 3 then some "A" else if h = 7 then some "B" else none⟩ "abcd"
        = ((fun h => if h = 3 then some "A" else if h = 7 then some "B" else none)
            (([3, 7] : List Nat).getD (i % ([3, 7] : List Nat).length) 0)).getD "") :=
  ⟨by decide,
   C5_ring_get ⟨fun s => s.utf8ByteSize, 1, [3, 7],
     fun h => if h = 3 then some "A" else if h = 7 then some "B" else none⟩
     "abcd" (by decide)⟩

/-! ## HTTP peer pool (src/unnamed/part_000)

`HTTPPool` holds the node's own base URL, the ring (`*consistenthash.Map`,
a nil pointer until `Set` is called — modelled as `Option`), and the
per-peer fetchers.  `Set` builds a fresh ring with `defaultReplicas = 50`
and the default CRC32 hash; as in `CH.new`, the embedding takes the
resolved hash function as a parameter.  `PickPeer` on a pool whose `Set`
was never called dereferences the nil ring in Go and panics; the embedding
returns `none` for that panic and `some (result, ok)` for a normal return. -/

/-- `httpGetter`: the remote fetcher handle; `Set` gives it
`baseURL = peer + basePath`. -/
structure httpGetter where
  baseURL : String
deriving Repr, DecidableEq

/-- `defaultBasePath` of the peer-pool file. -/
def defaultBasePath : String := "/_geecache/"

/-- `defaultReplicas`. -/
def defaultReplicas : Nat := 50

structure HTTPPool where
  self : String
  basePath : String
  peers : Option CH.Map
  httpGetters : String → Option httpGetter

/-- `NewHTTPPool(self)`: ring pointer and fetcher map start as Go zero
values (nil). -/
def NewHTTPPool (self : String) : HTTPPool :=
  { self := self, basePath := defaultBasePath, peers := none,
    httpGetters := fun _ => none }

/-- `HTTPPool.Set(peers...)`: build a fresh ring with `defaultReplicas` and
the (resolved) default hash, add all peers, and rebuild the fetcher map. -/
def HTTPPool.set (hash : String → Nat) (p : HTTPPool) (peers : List String) :
    HTTPPool :=
  { p with
    peers := some (CH.add (CH.new defaultReplicas hash) peers),
    httpGetters :=
      peers.foldl
        (fun f peer => fun s =>
          if s = peer then some { baseURL := peer ++ p.basePath } else f s)
        (fun _ => none) }

/-- `HTTPPool.PickPeer(key)`.  `none` models the Go panic (nil-ring
dereference when `Set` was never called); `some (g, ok)` models a normal
return of `(g, ok)`. -/
def HTTPPool.pickPeer (p : HTTPPool) (key : String) :
    Option (Option httpGetter × Bool) :=
  match p.peers with
  | none => none
  | some m =>
      let peer := m.get key
      if peer ≠ "" ∧ peer ≠ p.self then some (p.httpGetters peer, true)
      else some (none, false)

/-- C4 counterexample.  On a pool on which `Set` has never been called,
`PickPeer` does not return `(nil, false)`: `p.peers` is a nil pointer and
`p.peers.Get(key)` panics (here: the panic value `none`), contradicting the
claim's "including the case where Set has never been called". -/
theorem C4_pickpeer_counterexample :
    ¬ ((NewHTTPPool "http://a.com").pickPeer "k" = some (none, false)) := by
  decide

/-- C4 (amended).  After `Set` has been called (with any peer list,
including the empty one), `PickPeer(k)` returns `(nil, false)` whenever the
ring selects the empty string (no peers registered) or the local node, and
whenever it returns `ok = true` the ring's choice is neither `""` nor
`self` — so it never hands out an `ok = true` handle for the local node —
and it never panics.  If `Set` has never been called, `PickPeer` panics on
the nil ring instead of returning `(nil, false)`. -/
theorem C4_pickpeer_self (hash : String → Nat) (self : String)
    (peers : List String) (key : String) :
    (((CH.add (CH.new defaultReplicas hash) peers).get key = "" ∨
        (CH.add (CH.new defaultReplicas hash) peers).get key = self) →
      ((NewHTTPPool self).set hash peers).pickPeer key = some (none, false)) ∧
    (∀ g, ((NewHTTPPool self).set hash peers).pickPeer key = some (g, true) →
      (CH.add (CH.new defaultReplicas hash) peers).get key ≠ self ∧
      (CH.add (CH.new defaultReplicas hash) peers).get key ≠ "") ∧
    ((NewHTTPPool self).set hash peers).pickPeer key ≠ none := by
  refine ⟨?_, ?_, ?_⟩
  · intro hcase
    unfold HTTPPool.pickPeer HTTPPool.set NewHTTPPool
    simp only
    rw [if_neg]
    push_neg
    intro hne
    rcases hcase with h | h
    · exact absurd h hne
    · exact h
  · intro g hpick
    unfold HTTPPool.pickPeer HTTPPool.set NewHTTPPool at hpick
    simp only at hpick
    by_cases hc : (CH.add (CH.new defaultReplicas hash) peers).get key ≠ "" ∧
        (CH.add (CH.new defaultReplicas hash) peers).get key ≠ self
    · exact ⟨hc.2, hc.1⟩
    · rw [if_neg hc] at hpick
      simp at hpick
  · unfold HTTPPool.pickPeer HTTPPool.set NewHTTPPool
    simp only
    split <;> simp

/-- Witness for C4 on a one-node pool whose ring resolves every key to the
local node. -/
theorem C4_pickpeer_self_witness :
    (((CH.add (CH.new defaultReplicas (fun s => s.utf8ByteSize)) ["A"]).get "k" = "" ∨
        (CH.add (CH.new defaultReplicas (fun s => s.utf8ByteSize)) ["A"]).get "k" = "A") →
      ((NewHTTPPool "A").set (fun s => s.utf8ByteSize) ["A"]).pickPeer "k"
        = some (none, false)) ∧
    (∀ g, ((NewHTTPPool "A").set (fun s => s.utf8ByteSize) ["A"]).pickPeer "k"
        = some (g, true) →
      (CH.add (CH.new defaultReplicas (fun s => s.utf8ByteSize)) ["A"]).get "k" ≠ "A" ∧
      (CH.add (CH.new defaultReplicas (fun s => s.utf8ByteSize)) ["A"]).get "k" ≠ "") ∧
    ((NewHTTPPool "A").set (fun s => s.utf8ByteSize) ["A"]).pickPeer "k" ≠ none :=
  C4_pickpeer_self (fun s => s.utf8ByteSize) "A" ["A"] "k"

/-! ## ByteView, cache wrapper, and the group load path (src/http.go)

Bytes are `List Nat`.  The user loader (`Getter`), the peer picker and the
peer fetcher are pure oracles: functions returning `Except` for Go's
`(value, error)` pairs.  `Group.load` embeds the body of the coalesced
function of `Group.load` in the source — the behaviour `singleflight.Do`
gives the executing caller (the concurrent behaviour of `Do` itself is the
`SF` transition system below).  Ghost counters record how many times the
origin loader and the peer fetcher ran. -/

/-- `ByteView` (src/byteview.go). -/
structure ByteView where
  b : List Nat
deriving Repr, DecidableEq

/-- `ByteView.Len()`. -/
def ByteView.len (v : ByteView) : Nat := v.b.length

/-- `cloneBytes`: a defensive copy; in a value model the copy equals the
original. -/
def cloneBytes (b : List Nat) : List Nat := b

/-- The `cache` wrapper (src/cache.go): a lazily initialised LRU plus the
byte budget.  The ghost recency timestamps of the LRU model are irrelevant
to the group claims and fixed at `0` here. -/
structure cache where
  lru : Option (Lru ByteView)
  cacheBytes : Int

/-- `cache.add`: construct the LRU on first use, then forward. -/
def cache.add (c : cache) (key : String) (value : ByteView) : cache :=
  match c.lru with
  | none => { c with lru := some (lruAdd ByteView.len 0 (lruNew c.cacheBytes) key value) }
  | some l => { c with lru := some (lruAdd ByteView.len 0 l key value) }

/-- `cache.get`: `(ByteView{}, false)` before the LRU exists, else forward
(the LRU moves a hit to the front). -/
def cache.get (c : cache) (key : String) : Option ByteView × cache :=
  match c.lru with
  | none => (none, c)
  | some l =>
      match lruGet ByteView.len 0 l key with
      | (r, l') => (r, { c with lru := some l' })

/-- `PeerGetter.Get(group, key)`. -/
def PeerGetter : Type := String → String → Except String (List Nat)

/-- `PeerPicker.PickPeer(key) -> (peer, ok)`. -/
def PeerPicker : Type := String → Option PeerGetter

/-- `Group` (src/http.go): name, origin loader, main cache, optional peer
picker.  The `loader *singleflight.Group` field is the coalescer; its
per-call effect for the executing caller is `Group.load` below. -/
structure Group where
  name : String
  getter : String → Except String (List Nat)
  mainCache : cache
  peers : Option PeerPicker

/-- `Group.populateCache`. -/
def Group.populateCache (g : Group) (key : String) (value : ByteView) : Group :=
  { g with mainCache := g.mainCache.add key value }

/-- Result of a load, with the updated group and ghost invocation counts. -/
structure LoadResult where
  res : Except String ByteView
  g : Group
  loaderCalls : Nat
  peerCalls : Nat

/-- `Group.getLocally`: run the origin loader; on success wrap a defensive
copy and populate the cache, on failure return the error untouched. -/
def Group.getLocally (g : Group) (key : String) :
    Except String ByteView × Group :=
  match g.getter key with
  | .error e => (.error e, g)
  | .ok bytes =>
      (.ok { b := cloneBytes bytes },
       g.populateCache key { b := cloneBytes bytes })

/-- `Group.getFromPeer`: wrap the peer's bytes without copying. -/
def Group.getFromPeer (g : Group) (peer : PeerGetter) (key : String) :
    Except String ByteView :=
  match peer g.name key with
  | .error e => .error e
  | .ok bytes => .ok { b := bytes }

/-- The body of the coalesced function in `Group.load`: try the picked peer
first (if a picker is registered and it returns `ok = true`), fall back to
the local loader on peer failure. -/
def Group.load (g : Group) (key : String) : LoadResult :=
  match g.peers with
  | some picker =>
      match picker key with
      | some peer =>
          match g.getFromPeer peer key with
          | .ok v => { res := .ok v, g := g, loaderCalls := 0, peerCalls := 1 }
          | .error _ =>
              match g.getLocally key with
              | (r, g') => { res := r, g := g', loaderCalls := 1, peerCalls := 1 }
      | none =>
          match g.getLocally key with
          | (r, g') => { res := r, g := g', loaderCalls := 1, peerCalls := 0 }
  | none =>
      match g.getLocally key with
      | (r, g') => { res := r, g := g', loaderCalls := 1, peerCalls := 0 }

/-- `Group.Get`: empty-key check, cache lookup, then the load path.  The
boolean records whether the load path was entered. -/
def Group.get (g : Group) (key : String) : LoadResult × Bool :=
  if key = "" then
    ({ res := .error "key is required", g := g, loaderCalls := 0, peerCalls := 0 },
     false)
  else
    match g.mainCache.get key with
    | (some v, mc') =>
        ({ res := .ok v, g := { g with mainCache := mc' },
           loaderCalls := 0, peerCalls := 0 }, false)
    | (none, _) => (g.load key, true)

/-- C7.  When the coalesced load succeeds via a remote peer (the picker
returned `ok = true` and `peer.Get` succeeded), `load` returns a ByteView
wrapping the returned bytes and leaves the group — in particular
`mainCache` — unchanged: `populateCache` is not called (`loaderCalls = 0`
and the state is the input state), and a key that missed before still
misses. -/
theorem C7_remote_no_populate (g : Group) (key : String)
    (picker : PeerPicker) (peer : PeerGetter) (bytes : List Nat)
    (hp : g.peers = some picker) (hpick : picker key = some peer)
    (hfetch : peer g.name key = .ok bytes) :
    g.load key = ⟨.ok ⟨bytes⟩, g, 0, 1⟩ ∧
    ((g.mainCache.get key).1 = none →
      (((g.load key).g.mainCache.get key).1 = none)) := by
  have hload : g.load key = ⟨.ok ⟨bytes⟩, g, 0, 1⟩ := by
    unfold Group.load Group.getFromPeer
    simp only [hp, hpick, hfetch]
  exact ⟨hload, fun hmiss => by rw [hload]; exact hmiss⟩

/-- Concrete peer fetcher for the C7 witness. -/
def peer7 : PeerGetter := fun _ _ => .ok [7, 8]

/-- Concrete peer picker for the C7 witness. -/
def picker7 : PeerPicker := fun _ => some peer7

/-- Concrete group for the C7 witness. -/
def g7 : Group :=
  { name := "g", getter := fun _ => .ok [1],
    mainCache := { lru := none, cacheBytes := 100 },
    peers := some picker7 }

/-- Witness for C7 on a concrete group whose peer returns bytes `[7, 8]`. -/
theorem C7_remote_no_populate_witness :
    (g7.peers = some picker7 ∧ picker7 "k" = some peer7 ∧
      peer7 g7.name "k" = .ok [7, 8]) ∧
    (g7.load "k" = ⟨.ok ⟨[7, 8]⟩, g7, 0, 1⟩ ∧
      ((g7.mainCache.get "k").1 = none →
        (((g7.load "k").g.mainCache.get "k").1 = none))) :=
  ⟨⟨rfl, rfl, rfl⟩,
   C7_remote_no_populate g7 "k" picker7 peer7 [7, 8] rfl rfl rfl⟩

/-- C8.  If the peer fetch inside the coalesced load fails, the load falls
back to exactly one origin-loader attempt (`loaderCalls = 1`); if the
origin loader then returns an error, the error is surfaced, the group —
in particular `mainCache` — is unchanged, and a subsequent `Group.Get(k)`
(non-empty key, still a miss) re-enters the load path. -/
theorem C8_peer_fallback_error (g : Group) (key : String)
    (picker : PeerPicker) (peer : PeerGetter) (e1 e2 : String)
    (hp : g.peers = some picker) (hpick : picker key = some peer)
    (hfetch : peer g.name key = .error e1) (hload : g.getter key = .error e2) :
    g.load key = ⟨.error e2, g, 1, 1⟩ ∧
    (key ≠ "" → (g.mainCache.get key).1 = none →
      g.get key = (⟨.error e2, g, 1, 1⟩, true) ∧
      (((g.load key).g.get key).2 = true)) := by
  have hl : g.load key = ⟨.error e2, g, 1, 1⟩ := by
    unfold Group.load Group.getFromPeer Group.getLocally
    simp only [hp, hpick, hfetch, hload]
  refine ⟨hl, fun hne hmiss => ?_⟩
  have hget : g.get key = (⟨.error e2, g, 1, 1⟩, true) := by
    unfold Group.get
    rw [if_neg hne]
    cases hcg : g.mainCache.get key with
    | mk o mc' =>
        cases o with
        | none => simpa using hl
        | some v => rw [hcg] at hmiss; simp at hmiss
  refine ⟨hget, ?_⟩
  rw [hl]
  rw [hget]

/-- Concrete failing peer fetcher for the C8 witness. -/
def peer8 : PeerGetter := fun _ _ => .error "down"

/-- Concrete peer picker for the C8 witness. -/
def picker8 : PeerPicker := fun _ => some peer8

/-- Concrete group with a failing loader for the C8 witness. -/
def g8 : Group :=
  { name := "g", getter := fun _ => .error "boom",
    mainCache := { lru := none, cacheBytes := 100 },
    peers := some picker8 }

/-- Witness for C8 on a concrete group whose peer and loader both fail. -/
theorem C8_peer_fallback_error_witness :
    (g8.peers = some picker8 ∧ picker8 "k" = some peer8 ∧
      peer8 g8.name "k" = .error "down" ∧ g8.getter "k" = .error "boom") ∧
    (g8.load "k" = ⟨.error "boom", g8, 1, 1⟩ ∧
      ("k" ≠ "" → (g8.mainCache.get "k").1 = none →
        g8.get "k" = (⟨.error "boom", g8, 1, 1⟩, true) ∧
        (((g8.load "k").g.get "k").2 = true))) :=
  ⟨⟨rfl, rfl, rfl, rfl⟩,
   C8_peer_fallback_error g8 "k" picker8 peer8 "down" "boom" rfl rfl rfl rfl⟩

/-! ## Single-flight (src/singleflight/singleflight.go)

`Group.Do` is lock-based Go code; we embed it as a small-step transition
system whose atomic transitions are exactly its mutex-protected regions and
its `fn()` execution:

* `register` — lock; key absent in `g.m`; create the call, `wg.Add(1)`,
  insert, unlock; the caller becomes the executing owner.
* `join` — lock; key present with owner `o`; unlock; `c.wg.Wait()` begins.
* `complete` — `c.val, c.err = fn()` returns and `c.wg.Done()` runs.
  Waiters read `c.val, c.err` only after `Wait` returns, which the
  `WaitGroup` orders after `Done`, so assignment plus `Done` is one atomic
  publication.
* `panic` — `fn()` panics: the assignment, `wg.Done()` and the deletion are
  all skipped (the source has no `defer` for them) and `Do` never returns.
* `del` — lock; `delete(g.m, key)`; unlock; the owner returns its result.
* `wake` — a waiter's `Wait` returns (the owner has called `Done`) and the
  waiter returns `c.val, c.err` — the owner's stored result.

Each caller is described by its key and by what its `fn` would do when
executed (`none` = panic).  `Phase.done r o` records (ghost) that the
caller returned result `r` produced by owner `o`. -/

namespace SF

/-- A `(value, error)` pair returned by `fn`, coded abstractly. -/
inductive SfRes where
  | ok (v : Nat)
  | err (e : Nat)
deriving Repr, DecidableEq

/-- Static description of one caller of `Do(key, fn)`. -/
structure Caller where
  key : String
  fnSpec : Option SfRes
deriving Repr, DecidableEq

/-- Control point of one caller inside `Do`. -/
inductive Phase where
  | start
  | exec
  | finished
  | waiting (owner : Nat)
  | done (r : SfRes) (owner : Nat)
  | panicked
deriving Repr, DecidableEq

/-- Global state: the in-flight map `g.m` (key ↦ owner thread), and each
caller's phase. -/
structure St where
  inflight : List (String × Nat)
  phases : List Phase
deriving Repr, DecidableEq

/-- Initial state: empty map, all callers at the entry of `Do`. -/
def init (cfg : List Caller) : St :=
  { inflight := [], phases := cfg.map (fun _ => Phase.start) }

/-- The owner has called `wg.Done()`. -/
def doneCalled : Phase → Prop
  | .finished => True
  | .done _ _ => True
  | _ => False

/-- One atomic transition of the system (see the section comment). -/
inductive Step (cfg : List Caller) : St → St → Prop where
  | register (s : St) (i : Nat) (th : Caller)
      (hi : cfg[i]? = some th)
      (hp : s.phases[i]? = some .start)
      (hm : List.lookup th.key s.inflight = none) :
      Step cfg s { inflight := (th.key, i) :: s.inflight,
                   phases := s.phases.set i .exec }
  | join (s : St) (i : Nat) (th : Caller) (o : Nat)
      (hi : cfg[i]? = some th)
      (hp : s.phases[i]? = some .start)
      (hm : List.lookup th.key s.inflight = some o) :
      Step cfg s { s with phases := s.phases.set i (.waiting o) }
  | complete (s : St) (i : Nat) (th : Caller) (r : SfRes)
      (hi : cfg[i]? = some th)
      (hp : s.phases[i]? = some .exec)
      (hr : th.fnSpec = some r) :
      Step cfg s { s with phases := s.phases.set i .finished }
  | panic (s : St) (i : Nat) (th : Caller)
      (hi : cfg[i]? = some th)
      (hp : s.phases[i]? = some .exec)
      (hr : th.fnSpec = none) :
      Step cfg s { s with phases := s.phases.set i .panicked }
  | del (s : St) (i : Nat) (th : Caller) (r : SfRes)
      (hi : cfg[i]? = some th)
      (hp : s.phases[i]? = some .finished)
      (hr : th.fnSpec = some r) :
      Step cfg s { inflight := s.inflight.eraseP (fun q => q.1 == th.key),
                   phases := s.phases.set i (.done r i) }
  | wake (s : St) (i : Nat) (th : Caller) (o : Nat) (oth : Caller) (r : SfRes)
      (hi : cfg[i]? = some th)
      (hp : s.phases[i]? = some (.waiting o))
      (ho : cfg[o]? = some oth)
      (hd : ∃ ph, s.phases[o]? = some ph ∧ doneCalled ph)
      (hr : oth.fnSpec = some r) :
      Step cfg s { s with phases := s.phases.set i (.done r o) }

/-- Reachability from the initial state. -/
def Reach (cfg : List Caller) : St → Prop :=
  Relation.ReflTransGen (Step cfg) (init cfg)

/-- No transition is enabled. -/
def Stuck (cfg : List Caller) (s : St) : Prop :=
  ∀ s', ¬ Step cfg s s'

/-! ### Association-list lemmas -/

theorem lookup_some_mem {l : List (String × Nat)} {k : String} {o : Nat}
    (h : List.lookup k l = some o) : (k, o) ∈ l := by
  induction l with
  | nil => simp [List.lookup] at h
  | cons p l ih =>
      simp only [List.lookup] at h
      cases hk : (k == p.1) with
      | true =>
          simp only [hk] at h
          have hkk : k = p.1 := eq_of_beq hk
          cases h
          subst hkk
          simp
      | false =>
          simp only [hk] at h
          exact List.mem_cons_of_mem _ (ih h)

theorem lookup_none_not_mem {l : List (String × Nat)} {k : String}
    (h : List.lookup k l = none) : ∀ o, (k, o) ∉ l := by
  induction l with
  | nil => intro o; simp
  | cons p l ih =>
      simp only [List.lookup] at h
      cases hk : (k == p.1) with
      | true =>
          simp only [hk] at h
          exact absurd h (by simp)
      | false =>
          simp only [hk] at h
          intro o hmem
          rcases List.mem_cons.mp hmem with heq | hmem'
          · exact absurd (congrArg Prod.fst heq) (by simpa using hk)
          · exact ih h o hmem'

theorem keys_nodup_unique {l : List (String × Nat)}
    (h : (l.map Prod.fst).Nodup) {k : String} {a b : Nat} :
    (k, a) ∈ l → (k, b) ∈ l → a = b := by
  induction l with
  | nil => intro ha; simp at ha
  | cons p l ih =>
      rw [List.map_cons, List.nodup_cons] at h
      intro ha hb
      rcases List.mem_cons.mp ha with ha' | ha' <;>
        rcases List.mem_cons.mp hb with hb' | hb'
      · rw [← ha'] at hb'
        exact congrArg Prod.snd hb'.symm
      · have hk : k = p.1 := congrArg Prod.fst ha'
        exact absurd (List.mem_map.mpr ⟨(k, b), hb', hk⟩) h.1
      · have hk : k = p.1 := congrArg Prod.fst hb'
        exact absurd (List.mem_map.mpr ⟨(k, a), ha', hk⟩) h.1
      · exact ih h.2 ha' hb'

theorem mem_eraseP_of_not {α : Type _} {p : α → Bool} {x : α} {l : List α}
    (hx : x ∈ l) (hp : p x = false) : x ∈ l.eraseP p := by
  induction l with
  | nil => simp at hx
  | cons a l ih =>
      by_cases ha : p a
      · rw [List.eraseP_cons_of_pos ha]
        rcases List.mem_cons.mp hx with rfl | h'
        · rw [hp] at ha; simp at ha
        · exact h'
      · rw [List.eraseP_cons_of_neg ha]
        rcases List.mem_cons.mp hx with rfl | h'
        · exact List.mem_cons_self _ _
        · exact List.mem_cons_of_mem _ (ih h')

theorem not_mem_eraseP_key {l : List (String × Nat)}
    (h : (l.map Prod.fst).Nodup) (k : String) (o : Nat) :
    (k, o) ∉ l.eraseP (fun q => q.1 == k) := by
  induction l with
  | nil => simp
  | cons p l ih =>
      rw [List.map_cons, List.nodup_cons] at h
      by_cases hp : p.1 == k
      · have he : List.eraseP (fun q => q.1 == k) (p :: l) = l :=
          List.eraseP_cons_of_pos hp
        rw [he]
        intro hmem
        have : p.1 = k := eq_of_beq hp
        exact h.1 (this ▸ List.mem_map.mpr ⟨(k, o), hmem, rfl⟩)
      · have he : List.eraseP (fun q => q.1 == k) (p :: l)
            = p :: List.eraseP (fun q => q.1 == k) l :=
          List.eraseP_cons_of_neg hp
        rw [he]
        intro hmem
        rcases List.mem_cons.mp hmem with heq | hmem'
        · have hpk : p.1 = k := by rw [← heq]
          exact absurd hpk (by simpa using hp)
        · exact ih h.2 hmem'

theorem getElem?_some_lt {α : Type _} {l : List α} {i : Nat} {a : α}
    (h : l[i]? = some a) : i < l.length := by
  by_contra hc
  rw [List.getElem?_eq_none (by omega)] at h
  exact absurd h (by simp)

/-! ### The global invariant -/

/-- Invariant of the single-flight system:
* the in-flight map has at most one record per key;
* every record's owner is a caller of that key which is executing,
  finished, or panicked (a panicked owner leaks its record — the source has
  no `defer` to clean up);
* every executing or finished caller is registered under its key;
* a finished caller's `fn` returned a value (it did not panic);
* every returned result is exactly the `fn` result of its recorded owner. -/
structure Inv (cfg : List Caller) (s : St) : Prop where
  len : s.phases.length = cfg.length
  nodupKeys : (s.inflight.map Prod.fst).Nodup
  inflightOwner : ∀ (k : String) (o : Nat), (k, o) ∈ s.inflight →
    ∃ th, cfg[o]? = some th ∧ th.key = k ∧
      (s.phases[o]? = some .exec ∨ s.phases[o]? = some .finished ∨
        s.phases[o]? = some .panicked)
  ownerRegistered : ∀ (i : Nat) (th : Caller), cfg[i]? = some th →
    (s.phases[i]? = some .exec ∨ s.phases[i]? = some .finished) →
    (th.key, i) ∈ s.inflight
  finishedSpec : ∀ (i : Nat) (th : Caller), cfg[i]? = some th →
    s.phases[i]? = some .finished → ∃ r, th.fnSpec = some r
  doneSpec : ∀ (i : Nat) (r : SfRes) (o : Nat),
    s.phases[i]? = some (.done r o) →
    ∃ oth, cfg[o]? = some oth ∧ oth.fnSpec = some r

theorem inv_init (cfg : List Caller) : Inv cfg (init cfg) := by
  refine ⟨by simp [init], by simp [init], ?_, ?_, ?_, ?_⟩
  · intro k o hmem
    simp [init] at hmem
  · intro i th _ hex
    rcases hex with h | h <;>
      (simp only [init, List.getElem?_map] at h;
       cases hc : cfg[i]? <;> rw [hc] at h <;> simp at h)
  · intro i th _ hfin
    simp only [init, List.getElem?_map] at hfin
    cases hc : cfg[i]? <;> rw [hc] at hfin <;> simp at hfin
  · intro i r o hdone
    simp only [init, List.getElem?_map] at hdone
    cases hc : cfg[i]? <;> rw [hc] at hdone <;> simp at hdone

theorem inv_step (cfg : List Caller) {s s' : St} (hstep : Step cfg s s')
    (hinv : Inv cfg s) : Inv cfg s' := by
  cases hstep with
  | register i th hi hp hm =>
      have hil : i < s.phases.length := getElem?_some_lt hp
      refine ⟨by simpa using hinv.len, ?_, ?_, ?_, ?_, ?_⟩
      · rw [List.map_cons]
        refine List.nodup_cons.mpr ⟨?_, hinv.nodupKeys⟩
        intro hmem
        obtain ⟨q, hq, hq1⟩ := List.mem_map.mp hmem
        have hq1' : q.1 = th.key := hq1
        have hq' : (th.key, q.2) ∈ s.inflight := by
          rw [← hq1']
          exact hq
        exact lookup_none_not_mem hm q.2 hq'
      · intro k o hmem
        rcases List.mem_cons.mp hmem with heq | hmem'
        · injection heq with h1 h2
          subst h1; subst h2
          exact ⟨th, hi, rfl, Or.inl (List.getElem?_set_self hil)⟩
        · obtain ⟨th', hth', hkey, hph⟩ := hinv.inflightOwner k o hmem'
          by_cases ho : o = i
          · subst ho
            rcases hph with h | h | h <;> (rw [hp] at h; simp at h)
          · exact ⟨th', hth', hkey, by
              rwa [List.getElem?_set_ne (fun h => ho h.symm)]⟩
      · intro j th' hj hex
        by_cases hji : j = i
        · subst hji
          have : th' = th := by
            rw [hi] at hj
            exact (Option.some_inj.mp hj).symm
          subst this
          exact List.mem_cons_self _ _
        · rw [List.getElem?_set_ne (fun h => hji h.symm)] at hex
          exact List.mem_cons_of_mem _ (hinv.ownerRegistered j th' hj hex)
      · intro j th' hj hfin
        by_cases hji : j = i
        · subst hji
          rw [List.getElem?_set_self hil] at hfin
          simp at hfin
        · rw [List.getElem?_set_ne (fun h => hji h.symm)] at hfin
          exact hinv.finishedSpec j th' hj hfin
      · intro j r o hdone
        by_cases hji : j = i
        · subst hji
          rw [List.getElem?_set_self hil] at hdone
          simp at hdone
        · rw [List.getElem?_set_ne (fun h => hji h.symm)] at hdone
          exact hinv.doneSpec j r o hdone
  | join i th o hi hp hm =>
      have hil : i < s.phases.length := getElem?_some_lt hp
      refine ⟨by simpa using hinv.len, hinv.nodupKeys, ?_, ?_, ?_, ?_⟩
      · intro k o' hmem
        obtain ⟨th', hth', hkey, hph⟩ := hinv.inflightOwner k o' hmem
        by_cases ho' : o' = i
        · subst ho'
          rcases hph with h | h | h <;> (rw [hp] at h; simp at h)
        · exact ⟨th', hth', hkey, by
            rwa [List.getElem?_set_ne (fun h => ho' h.symm)]⟩
      · intro j th' hj hex
        by_cases hji : j = i
        · subst hji
          rw [List.getElem?_set_self hil] at hex
          rcases hex with h | h <;> simp at h
        · rw [List.getElem?_set_ne (fun h => hji h.symm)] at hex
          exact hinv.ownerRegistered j th' hj hex
      · intro j th' hj hfin
        by_cases hji : j = i
        · subst hji
          rw [List.getElem?_set_self hil] at hfin
          simp at hfin
        · rw [List.getElem?_set_ne (fun h => hji h.symm)] at hfin
          exact hinv.finishedSpec j th' hj hfin
      · intro j r o' hdone
        by_cases hji : j = i
        · subst hji
          rw [List.getElem?_set_self hil] at hdone
          simp at hdone
        · rw [List.getElem?_set_ne (fun h => hji h.symm)] at hdone
          exact hinv.doneSpec j r o' hdone
  | complete i th r hi hp hr =>
      have hil : i < s.phases.length := getElem?_some_lt hp
      refine ⟨by simpa using hinv.len, hinv.nodupKeys, ?_, ?_, ?_, ?_⟩
      · intro k o' hmem
        obtain ⟨th', hth', hkey, hph⟩ := hinv.inflightOwner k o' hmem
        by_cases ho' : o' = i
        · subst ho'
          exact ⟨th', hth', hkey,
            Or.inr (Or.inl (List.getElem?_set_self hil))⟩
        · exact ⟨th', hth', hkey, by
            rwa [List.getElem?_set_ne (fun h => ho' h.symm)]⟩
      · intro j th' hj hex
        by_cases hji : j = i
        · subst hji
          have : th' = th := by
            rw [hi] at hj
            exact (Option.some_inj.mp hj).symm
          subst this
          exact hinv.ownerRegistered j th' hj (Or.inl hp)
        · rw [List.getElem?_set_ne (fun h => hji h.symm)] at hex
          exact hinv.ownerRegistered j th' hj hex
      · intro j th' hj hfin
        by_cases hji : j = i
        · subst hji
          have : th' = th := by
            rw [hi] at hj
            exact (Option.some_inj.mp hj).symm
          subst this
          exact ⟨r, hr⟩
        · rw [List.getElem?_set_ne (fun h => hji h.symm)] at hfin
          exact hinv.finishedSpec j th' hj hfin
      · intro j r' o' hdone
        by_cases hji : j = i
        · subst hji
          rw [List.getElem?_set_self hil] at hdone
          simp at hdone
        · rw [List.getElem?_set_ne (fun h => hji h.symm)] at hdone
          exact hinv.doneSpec j r' o' hdone
  | panic i th hi hp hr =>
      have hil : i < s.phases.length := getElem?_some_lt hp
      refine ⟨by simpa using hinv.len, hinv.nodupKeys, ?_, ?_, ?_, ?_⟩
      · intro k o' hmem
        obtain ⟨th', hth', hkey, hph⟩ := hinv.inflightOwner k o' hmem
        by_cases ho' : o' = i
        · subst ho'
          exact ⟨th', hth', hkey,
            Or.inr (Or.inr (List.getElem?_set_self hil))⟩
        · exact ⟨th', hth', hkey, by
            rwa [List.getElem?_set_ne (fun h => ho' h.symm)]⟩
      · intro j th' hj hex
        by_cases hji : j = i
        · subst hji
          rw [List.getElem?_set_self hil] at hex
          rcases hex with h | h <;> simp at h
        · rw [List.getElem?_set_ne (fun h => hji h.symm)] at hex
          exact hinv.ownerRegistered j th' hj hex
      · intro j th' hj hfin
        by_cases hji : j = i
        · subst hji
          rw [List.getElem?_set_self hil] at hfin
          simp at hfin
        · rw [List.getElem?_set_ne (fun h => hji h.symm)] at hfin
          exact hinv.finishedSpec j th' hj hfin
      · intro j r' o' hdone
        by_cases hji : j = i
        · subst hji
          rw [List.getElem?_set_self hil] at hdone
          simp at hdone
        · rw [List.getElem?_set_ne (fun h => hji h.symm)] at hdone
          exact hinv.doneSpec j r' o' hdone
  | del i th r hi hp hr =>
      have hil : i < s.phases.length := getElem?_some_lt hp
      refine ⟨by simpa using hinv.len, ?_, ?_, ?_, ?_, ?_⟩
      · exact hinv.nodupKeys.sublist ((List.eraseP_sublist _).map Prod.fst)
      · intro k o' hmem
        have hmem' := (List.eraseP_sublist _).subset hmem
        obtain ⟨th', hth', hkey, hph⟩ := hinv.inflightOwner k o' hmem'
        by_cases ho' : o' = i
        · subst ho'
          have : th' = th := by
            rw [hi] at hth'
            exact (Option.some_inj.mp hth').symm
          subst this
          rw [← hkey] at hmem
          exact absurd hmem (not_mem_eraseP_key hinv.nodupKeys th'.key o')
        · exact ⟨th', hth', hkey, by
            rwa [List.getElem?_set_ne (fun h => ho' h.symm)]⟩
      · intro j th' hj hex
        by_cases hji : j = i
        · subst hji
          rw [List.getElem?_set_self hil] at hex
          rcases hex with h | h <;> simp at h
        · rw [List.getElem?_set_ne (fun h => hji h.symm)] at hex
          have hmem := hinv.ownerRegistered j th' hj hex
          by_cases hkk : th'.key == th.key
          · have hkeq : th'.key = th.key := eq_of_beq hkk
            have hmi : (th.key, i) ∈ s.inflight :=
              hinv.ownerRegistered i th hi (Or.inr hp)
            rw [hkeq] at hmem
            exact absurd (keys_nodup_unique hinv.nodupKeys hmem hmi) hji
          · refine mem_eraseP_of_not hmem ?_
            simpa using hkk
      · intro j th' hj hfin
        by_cases hji : j = i
        · subst hji
          rw [List.getElem?_set_self hil] at hfin
          simp at hfin
        · rw [List.getElem?_set_ne (fun h => hji h.symm)] at hfin
          exact hinv.finishedSpec j th' hj hfin
      · intro j r' o' hdone
        by_cases hji : j = i
        · subst hji
          rw [List.getElem?_set_self hil] at hdone
          rw [Option.some_inj] at hdone
          cases hdone
          exact ⟨th, hi, hr⟩
        · rw [List.getElem?_set_ne (fun h => hji h.symm)] at hdone
          exact hinv.doneSpec j r' o' hdone
  | wake i th o oth r hi hp ho hd hr =>
      have hil : i < s.phases.length := getElem?_some_lt hp
      refine ⟨by simpa using hinv.len, hinv.nodupKeys, ?_, ?_, ?_, ?_⟩
      · intro k o' hmem
        obtain ⟨th', hth', hkey, hph⟩ := hinv.inflightOwner k o' hmem
        by_cases ho' : o' = i
        · subst ho'
          rcases hph with h | h | h <;> (rw [hp] at h; simp at h)
        · exact ⟨th', hth', hkey, by
            rwa [List.getElem?_set_ne (fun h => ho' h.symm)]⟩
      · intro j th' hj hex
        by_cases hji : j = i
        · subst hji
          rw [List.getElem?_set_self hil] at hex
          rcases hex with h | h <;> simp at h
        · rw [List.getElem?_set_ne (fun h => hji h.symm)] at hex
          exact hinv.ownerRegistered j th' hj hex
      · intro j th' hj hfin
        by_cases hji : j = i
        · subst hji
          rw [List.getElem?_set_self hil] at hfin
          simp at hfin
        · rw [List.getElem?_set_ne (fun h => hji h.symm)] at hfin
          exact hinv.finishedSpec j th' hj hfin
      · intro j r' o' hdone
        by_cases hji : j = i
        · subst hji
          rw [List.getElem?_set_self hil] at hdone
          rw [Option.some_inj] at hdone
          cases hdone
          exact ⟨oth, ho, hr⟩
        · rw [List.getElem?_set_ne (fun h => hji h.symm)] at hdone
          exact hinv.doneSpec j r' o' hdone

/-- The invariant holds in every reachable state. -/
theorem inv_reach (cfg : List Caller) {s : St} (h : Reach cfg s) :
    Inv cfg s := by
  induction h with
  | refl => exact inv_init cfg
  | tail _ hstep ih => exact inv_step cfg hstep ih

end SF

/-- C2.  In every reachable state of the single-flight system:
(a) at most one caller is executing `fn` for any given key at any time, so
within one coalescing window (the lifetime of one in-flight record) the
origin loader runs at most once — only the record's creator runs it;
(b) every caller that returned did so with exactly the `fn` result stored
by its recorded owner; hence (c) any two callers served by the same
in-flight record — in particular all N concurrent `Get(k)` on the same
missing key that coalesced on one record — observe the same
`(value, error)` pair. -/
theorem C2_singleflight_coalescing (cfg : List SF.Caller) (s : SF.St)
    (h : SF.Reach cfg s) :
    (∀ (i j : Nat) (thi thj : SF.Caller), cfg[i]? = some thi →
      cfg[j]? = some thj → s.phases[i]? = some .exec →
      s.phases[j]? = some .exec → thi.key = thj.key → i = j) ∧
    (∀ (i : Nat) (r : SF.SfRes) (o : Nat), s.phases[i]? = some (.done r o) →
      ∃ oth, cfg[o]? = some oth ∧ oth.fnSpec = some r) ∧
    (∀ (i j : Nat) (ri rj : SF.SfRes) (o : Nat),
      s.phases[i]? = some (.done ri o) → s.phases[j]? = some (.done rj o) →
      ri = rj) := by
  have hinv := SF.inv_reach cfg h
  refine ⟨?_, hinv.doneSpec, ?_⟩
  · intro i j thi thj hi hj hpi hpj hkey
    have hmi := hinv.ownerRegistered i thi hi (Or.inl hpi)
    have hmj := hinv.ownerRegistered j thj hj (Or.inl hpj)
    rw [hkey] at hmi
    exact SF.keys_nodup_unique hinv.nodupKeys hmi hmj
  · intro i j ri rj o hdi hdj
    obtain ⟨oth1, ho1, hr1⟩ := hinv.doneSpec i ri o hdi
    obtain ⟨oth2, ho2, hr2⟩ := hinv.doneSpec j rj o hdj
    rw [ho1] at ho2
    cases Option.some_inj.mp ho2
    rw [hr1] at hr2
    exact Option.some_inj.mp hr2

/-- Concrete two-caller configuration for the single-flight witnesses: both
callers ask for key `"k"`, their `fn` returns `ok 5`. -/
def cfgW : List SF.Caller := [⟨"k", some (.ok 5)⟩, ⟨"k", some (.ok 5)⟩]

/-- Intermediate state: caller 0 registered and executing, caller 1 joined
caller 0's record and is waiting. -/
def stW : SF.St := ⟨[("k", 0)], [.exec, .waiting 0]⟩

theorem stW_reachable : SF.Reach cfgW stW := by
  have h01 : SF.Step cfgW (SF.init cfgW) ⟨[("k", 0)], [.exec, .start]⟩ :=
    SF.Step.register (SF.init cfgW) 0 ⟨"k", some (.ok 5)⟩ rfl rfl rfl
  have h12 : SF.Step cfgW (⟨[("k", 0)], [.exec, .start]⟩ : SF.St) stW :=
    SF.Step.join ⟨[("k", 0)], [.exec, .start]⟩ 1 ⟨"k", some (.ok 5)⟩ 0
      rfl rfl rfl
  exact Relation.ReflTransGen.head h01 (Relation.ReflTransGen.head h12 .refl)

/-- Witness for C2 at the concrete reachable state `stW`. -/
theorem C2_singleflight_coalescing_witness :
    SF.Reach cfgW stW ∧
    ((∀ (i j : Nat) (thi thj : SF.Caller), cfgW[i]? = some thi →
        cfgW[j]? = some thj → stW.phases[i]? = some .exec →
        stW.phases[j]? = some .exec → thi.key = thj.key → i = j) ∧
      (∀ (i : Nat) (r : SF.SfRes) (o : Nat),
        stW.phases[i]? = some (.done r o) →
        ∃ oth, cfgW[o]? = some oth ∧ oth.fnSpec = some r) ∧
      (∀ (i j : Nat) (ri rj : SF.SfRes) (o : Nat),
        stW.phases[i]? = some (.done ri o) →
        stW.phases[j]? = some (.done rj o) → ri = rj)) :=
  ⟨stW_reachable, C2_singleflight_coalescing cfgW stW stW_reachable⟩

/-- Configuration for the C3 counterexample: caller 0's `fn` panics, caller
1 asks for the same key. -/
def cfgP : List SF.Caller := [⟨"k", none⟩, ⟨"k", some (.ok 0)⟩]

/-- State after: caller 0 registered, caller 1 joined and waits, caller 0's
`fn` panicked. -/
def stP : SF.St := ⟨[("k", 0)], [.panicked, .waiting 0]⟩

/-- C3 counterexample.  In the execution where caller 0's `fn` panics while
caller 1 waits on the record, the reachable state `stP` still holds the
in-flight record for `"k"` (it is never deleted: the source runs
`c.wg.Done()` and `delete(g.m, key)` only after `fn()` returns, with no
`defer`), caller 1 is still blocked in `Wait`, and no transition is enabled
ever again — so the error is not delivered to the waiter, the key is not
released, and a later `Do("k", fn')` would join the dead record and block,
contradicting the claim for the panic case. -/
theorem C3_singleflight_panic_counterexample :
    SF.Reach cfgP stP ∧
    List.lookup "k" stP.inflight = some 0 ∧
    stP.phases[1]? = some (.waiting 0) ∧
    SF.Stuck cfgP stP := by
  refine ⟨?_, rfl, rfl, ?_⟩
  · have h01 : SF.Step cfgP (SF.init cfgP) ⟨[("k", 0)], [.exec, .start]⟩ :=
      SF.Step.register (SF.init cfgP) 0 ⟨"k", none⟩ rfl rfl rfl
    have h12 : SF.Step cfgP (⟨[("k", 0)], [.exec, .start]⟩ : SF.St)
        ⟨[("k", 0)], [.exec, .waiting 0]⟩ :=
      SF.Step.join ⟨[("k", 0)], [.exec, .start]⟩ 1 ⟨"k", some (.ok 0)⟩ 0
        rfl rfl rfl
    have h23 : SF.Step cfgP (⟨[("k", 0)], [.exec, .waiting 0]⟩ : SF.St) stP :=
      SF.Step.panic ⟨[("k", 0)], [.exec, .waiting 0]⟩ 0 ⟨"k", none⟩
        rfl rfl rfl
    exact Relation.ReflTransGen.head h01
      (Relation.ReflTransGen.head h12 (Relation.ReflTransGen.head h23 .refl))
  · intro s' hst
    cases hst with
    | register i th hi hp hm =>
        rcases i with _ | _ | i <;> simp [stP] at hp
    | join i th o hi hp hm =>
        rcases i with _ | _ | i <;> simp [stP] at hp
    | complete i th r hi hp hr =>
        rcases i with _ | _ | i <;> simp [stP] at hp
    | panic i th hi hp hr =>
        rcases i with _ | _ | i <;> simp [stP] at hp
    | del i th r hi hp hr =>
        rcases i with _ | _ | i <;> simp [stP] at hp
    | wake i th o oth r hi hp ho hd hr =>
        rcases i with _ | _ | i <;> simp [stP] at hp
        obtain ⟨ph, hph, hdc⟩ := hd
        rw [← hp] at hph
        simp [stP] at hph
        rw [← hph] at hdc
        exact hdc

/-- C3 (amended).  If `fn` returns an error, the error is delivered to all
waiters of the record and the key is released so a later `Do` schedules a
fresh execution; in every reachable state: (a) every caller that returned
from a record whose owner's `fn` produced `err e` returned exactly `err e`;
(b) while a record for a key exists, its owner is still executing,
finished-but-not-returned, or panicked — never returned — so after the
owner returns the record is gone; (c) a caller at the entry of `Do` whose
key has no record can immediately register and run a fresh execution.  If
`fn` panics, none of this cleanup happens: the record survives and its
waiters block forever (see the counterexample). -/
theorem C3_singleflight_error_release (cfg : List SF.Caller) (s : SF.St)
    (h : SF.Reach cfg s) :
    (∀ (i o : Nat) (oth : SF.Caller) (e : Nat), cfg[o]? = some oth →
      oth.fnSpec = some (.err e) →
      ∀ r, s.phases[i]? = some (.done r o) → r = .err e) ∧
    (∀ (k : String) (o : Nat), List.lookup k s.inflight = some o →
      s.phases[o]? = some .exec ∨ s.phases[o]? = some .finished ∨
        s.phases[o]? = some .panicked) ∧
    (∀ (i : Nat) (th : SF.Caller), cfg[i]? = some th →
      s.phases[i]? = some .start → List.lookup th.key s.inflight = none →
      SF.Step cfg s { inflight := (th.key, i) :: s.inflight,
                      phases := s.phases.set i .exec }) := by
  have hinv := SF.inv_reach cfg h
  refine ⟨?_, ?_, ?_⟩
  · intro i o oth e ho hspec r hdone
    obtain ⟨oth', ho', hr'⟩ := hinv.doneSpec i r o hdone
    rw [ho] at ho'
    cases Option.some_inj.mp ho'
    rw [hspec] at hr'
    exact (Option.some_inj.mp hr').symm
  · intro k o hlk
    obtain ⟨th, _, _, hph⟩ := hinv.inflightOwner k o (SF.lookup_some_mem hlk)
    exact hph
  · intro i th hi hp hm
    exact SF.Step.register s i th hi hp hm

/-- Witness for the amended C3 at the concrete reachable state `stW`. -/
theorem C3_singleflight_error_release_witness :
    SF.Reach cfgW stW ∧
    ((∀ (i o : Nat) (oth : SF.Caller) (e : Nat), cfgW[o]? = some oth →
        oth.fnSpec = some (.err e) →
        ∀ r, stW.phases[i]? = some (.done r o) → r = .err e) ∧
      (∀ (k : String) (o : Nat), List.lookup k stW.inflight = some o →
        stW.phases[o]? = some .exec ∨ stW.phases[o]? = some .finished ∨
          stW.phases[o]? = some .panicked) ∧
      (∀ (i : Nat) (th : SF.Caller), cfgW[i]? = some th →
        stW.phases[i]? = some .start →
        List.lookup th.key stW.inflight = none →
        SF.Step cfgW stW { inflight := (th.key, i) :: stW.inflight,
                           phases := stW.phases.set i .exec })) :=
  ⟨stW_reachable, C3_singleflight_error_release cfgW stW stW_reachable⟩

end KCache

